import Mathlib



/-!
Verification of the `sourcer` parsing-expression engine.

The Python package compiles each parsing expression (`sourcer/parsing_expressions.py`)
into straight-line code over a state `(_status, _result, _pos)` threaded through the
input `_text`, with rule calls dispatched and memoized by the trampoline `_run`.

This file gives a shallow embedding of that generated code:

* `PExpr` is the expression algebra (the fragment exercised by the claims).
* `peval` is a fuel-based evaluator whose per-constructor behaviour mirrors, case by
  case, the code emitted by each class's `_compile` method.  On failure the result
  channel holds the failing expression, standing for the generated
  `_generate_error_message<id>` closure that the compiled code stores in `_result`.
* `pevalMemo` mirrors the packrat driver `_run`: rule calls are routed through a
  `(rule, pos)` memo table.

Loops in the generated code (`List`, `Alt`, `Skip`, the operator-precedence folds and
the choice sweep) are modelled by fuel-indexed helper functions parametrised by the
evaluation function for sub-expressions, exactly following the emitted control flow
(`checkpoint` variables, `break`/`continue`, farthest-failure tracking).
-/

/-- Runtime parse values: strings from literal matches, flat lists from `Seq`, `List`
and `Alt`, `None` from `Opt`/`Skip`, and `Infix` nodes from the operator-precedence
levels. -/
inductive Value where
  | str (s : String)
  | list (vs : List Value)
  | null
  | infixN (left op right : Value)

/-- The parsing-expression algebra, following the classes of
`sourcer/parsing_expressions.py`.  `strLit` is `StringLiteral` (with its
`skip_ignored` flag), `failE` is `Fail`, `choice` is `Choice`, `seq` is `Seq` with the
default list constructor, `listE` is `List`, `alt` is `Alt`, `opt` is `Opt`, `skip` is
`Skip`, `ref` is a resolved `Ref` to a grammar rule, `leftAssoc` covers `LeftAssoc`
and (with the flag) its subclass `NonAssoc`, and `rightAssoc` is `RightAssoc` with its
operand wired in by `OperatorPrecedence`. -/
inductive PExpr where
  | strLit (value : String) (skipIgnored : Bool)
  | failE
  | choice (exprs : List PExpr)
  | seq (exprs : List PExpr)
  | listE (expr : PExpr) (allowEmpty : Bool)
  | alt (expr separator : PExpr) (allowTrailer allowEmpty : Bool)
  | opt (expr : PExpr)
  | skip (exprs : List PExpr)
  | ref (name : String)
  | leftAssoc (operand operators : PExpr) (nonAssoc : Bool)
  | rightAssoc (operand operators : PExpr)

/-- Outcome of evaluating one expression: the final `(_status, _result, _pos)`
triple.  On failure the expression whose error closure was stored in `_result` is
kept. -/
inductive POut where
  | ok (v : Value) (pos : Nat)
  | err (e : PExpr) (pos : Nat)

/-- The `_pos` component of an outcome triple. -/
def POut.pos : POut → Nat
  | .ok _ p => p
  | .err _ p => p

/-- A compiled grammar: rule name to rule body, as bound by `Rule._compile`. -/
def Grammar := List (String × PExpr)

/-- Rule lookup by name (dispatch to the generated `_cont_<name>` function). -/
def lookupRule : Grammar → String → Option PExpr
  | [], _ => none
  | (n, e) :: rest, name => if n = name then some e else lookupRule rest name

mutual

/-- The `always_succeeds` predicate of `Expr` and its overrides: `Alt` returns
`allow_empty`, `Choice` asks whether any alternative always succeeds, `Opt` and
`Skip` return true, `StringLiteral` is true exactly for the empty literal, every
other class inherits the default `False`. -/
def alwaysSucceeds : PExpr → Bool
  | .strLit v _ => v = ""
  | .choice es => anyAlwaysSucceeds es
  | .alt _ _ _ allowEmpty => allowEmpty
  | .opt _ => true
  | .skip _ => true
  | _ => false

/-- Helper of `alwaysSucceeds` for the list of a `Choice`'s alternatives. -/
def anyAlwaysSucceeds : List PExpr → Bool
  | [] => false
  | e :: rest => alwaysSucceeds e || anyAlwaysSucceeds rest

end

/-- The loop emitted by `Choice._compile`: each alternative runs from `backtrack`;
on success the loop breaks; on failure `farthest_pos`/`farthest_err` are replaced
when the new position is strictly greater; when the alternatives are exhausted the
farthest failure is returned. -/
def choiceLoop (ev : PExpr → Nat → Option POut) :
    List PExpr → Nat → Nat → PExpr → Option POut
  | [], _, farthest, ferr => some (.err ferr farthest)
  | e :: rest, backtrack, farthest, ferr =>
    match ev e backtrack with
    | none => none
    | some (.ok v p) => some (.ok v p)
    | some (.err er ep) =>
      if farthest < ep then choiceLoop ev rest backtrack ep er
      else choiceLoop ev rest backtrack farthest ferr

/-- The sequence emitted by `Seq._compile`: each child runs at the running position,
any failure breaks out, and on full success the collected items form a list. -/
def seqLoop (ev : PExpr → Nat → Option POut) :
    List PExpr → List Value → Nat → Option POut
  | [], acc, pos => some (.ok (.list acc) pos)
  | e :: rest, acc, pos =>
    match ev e pos with
    | none => none
    | some (.err er ep) => some (.err er ep)
    | some (.ok v p) => seqLoop ev rest (acc ++ [v]) p

/-- The loop emitted by `List._compile`: a checkpoint is taken at the top of each
iteration; on failure of the element the position is restored to that checkpoint and
the loop breaks, remembering the element's error closure. -/
def listLoop (ev : PExpr → Nat → Option POut) (e : PExpr) :
    Nat → List Value → Nat → Option (List Value × Nat × PExpr)
  | 0, _, _ => none
  | n + 1, acc, pos =>
    match ev e pos with
    | none => none
    | some (.err er _) => some (acc, pos, er)
    | some (.ok v p) => listLoop ev e n (acc ++ [v]) p

/-- The loop emitted by `Alt._compile`: parse element, checkpoint, parse separator;
with `allow_trailer` the checkpoint moves past a successful separator.  The loop
result carries the staged items, the checkpoint, and the error closure and position
of the evaluation that broke the loop. -/
def altLoop (ev : PExpr → Nat → Option POut) (e sep : PExpr) (aT : Bool) :
    Nat → List Value → Nat → Nat → Option (List Value × Nat × PExpr × Nat)
  | 0, _, _, _ => none
  | n + 1, acc, checkpoint, pos =>
    match ev e pos with
    | none => none
    | some (.err er ep) => some (acc, checkpoint, er, ep)
    | some (.ok v p) =>
      match ev sep p with
      | none => none
      | some (.err er2 ep2) => some (acc ++ [v], p, er2, ep2)
      | some (.ok _ p2) =>
        altLoop ev e sep aT n (acc ++ [v]) (if aT then p2 else p) p2

/-- One pass of the loop emitted by `Skip._compile`: try each listed expression from
the checkpoint `c`; the first success restarts the sweep from its new position
(`continue`); a failure restores the position to `c` and moves to the next
expression. -/
def sweep (ev : PExpr → Nat → Option POut) (c : Nat) : List PExpr → Option (Option Nat)
  | [] => some none
  | e :: rest =>
    match ev e c with
    | none => none
    | some (.ok _ p) => some (some p)
    | some (.err _ _) => sweep ev c rest

/-- The outer loop of `Skip._compile`: repeat sweeps until one makes no progress. -/
def skipLoop (ev : PExpr → Nat → Option POut) (es : List PExpr) :
    Nat → Nat → Option Nat
  | 0, _ => none
  | n + 1, c =>
    match sweep ev c es with
    | none => none
    | some none => some c
    | some (some p) => skipLoop ev es n p

/-- The loop emitted by `LeftAssoc._compile` (and, via the `isinstance` test, by its
subclass `NonAssoc`): fold successive operands into `Infix` nodes, with a checkpoint
after every successful operand; `NonAssoc` breaks right after the first fold. -/
def laLoop (ev : PExpr → Nat → Option POut) (operand operators : PExpr) (na : Bool) :
    Nat → Bool → Value → Value → Nat → Nat → Option POut
  | 0, _, _, _, _, _ => none
  | n + 1, isFirst, staging, operatorV, checkpoint, pos =>
    match ev operand pos with
    | none => none
    | some (.err er ep) =>
      if isFirst then some (.err er ep) else some (.ok staging checkpoint)
    | some (.ok v p) =>
      let staging2 := if isFirst then v else .infixN staging operatorV v
      if !isFirst && na then some (.ok staging2 p)
      else
        match ev operators p with
        | none => none
        | some (.err _ _) => some (.ok staging2 p)
        | some (.ok opv p2) => laLoop ev operand operators na n false staging2 opv p p2

/-- Close the mutated right spine built by `RightAssoc._compile`: the staged `Infix`
nodes (operand, operator) with a hole in the deepest `right` field, filled with
`x`. -/
def closeSpine (spine : List (Value × Value)) (x : Value) : Value :=
  spine.foldr (fun pr acc => .infixN pr.1 pr.2 acc) x

/-- The loop emitted by `RightAssoc._compile`.  The generated code mutates the
`right` field of the previously staged `Infix` node; here the chain of staged nodes
is the `spine`.  On operand failure after a consumed operator the dangling node is
replaced by its own left operand (`backup.right = prev.left`); on operator failure
the last operand closes the spine. -/
def raLoop (ev : PExpr → Nat → Option POut) (operand operators : PExpr) :
    Nat → List (Value × Value) → Nat → Nat → Option POut
  | 0, _, _, _ => none
  | n + 1, spine, checkpoint, pos =>
    match ev operand pos with
    | none => none
    | some (.err er ep) =>
      match spine.getLast? with
      | none => some (.err er ep)
      | some pr => some (.ok (closeSpine spine.dropLast pr.1) checkpoint)
    | some (.ok v p) =>
      match ev operators p with
      | none => none
      | some (.err _ _) => some (.ok (closeSpine spine v) p)
      | some (.ok opv p2) => raLoop ev operand operators n (spine ++ [(v, opv)]) p p2

/-- The evaluator: one step of generated code per constructor, with `fuel`
bounding the depth of rule calls and the number of loop iterations.  `none` means
the generated Python would not have returned within that budget (including genuine
divergence, e.g. `List` over an expression that succeeds without consuming).

`strLit` mirrors `StringLiteral._compile`: the empty literal returns success
immediately (before the `skip_ignored` logic); otherwise the slice
`_text[_pos:end]` is compared against the literal, and with `skip_ignored` set the
new position is the position component of a call to the `_ignored` rule. -/
def peval (g : Grammar) : Nat → PExpr → List Char → Nat → Option POut
  | 0, _, _, _ => none
  | fuel + 1, e, text, pos =>
    match e with
    | .strLit v sk =>
      if v = "" then some (.ok (.str "") pos)
      else
        if (text.drop pos).take v.length = v.data then
          if sk then
            match lookupRule g "_ignored" with
            | none => none
            | some body =>
              match peval g fuel body text (pos + v.length) with
              | none => none
              | some o => some (.ok (.str v) o.pos)
          else some (.ok (.str v) (pos + v.length))
        else some (.err (.strLit v sk) pos)
    | .failE => some (.err .failE pos)
    | .choice es =>
      match es with
      | [] => none
      | _ :: _ => choiceLoop (fun e2 p => peval g fuel e2 text p) es pos pos (.choice es)
    | .seq es => seqLoop (fun e2 p => peval g fuel e2 text p) es [] pos
    | .listE e2 allowEmpty =>
      match listLoop (fun e3 p => peval g fuel e3 text p) e2 fuel [] pos with
      | none => none
      | some (acc, cp, er) =>
        if allowEmpty || !acc.isEmpty then some (.ok (.list acc) cp)
        else some (.err er cp)
    | .alt e2 sep aT aE =>
      match altLoop (fun e3 p => peval g fuel e3 text p) e2 sep aT fuel [] pos pos with
      | none => none
      | some (acc, cp, er, ep) =>
        if aE || !acc.isEmpty then some (.ok (.list acc) cp)
        else some (.err er ep)
    | .opt e2 =>
      match peval g fuel e2 text pos with
      | none => none
      | some (.ok v p) => some (.ok v p)
      | some (.err _ _) => some (.ok .null pos)
    | .skip es =>
      match skipLoop (fun e2 p => peval g fuel e2 text p) es fuel pos with
      | none => none
      | some q => some (.ok .null q)
    | .ref name =>
      match lookupRule g name with
      | none => none
      | some body => peval g fuel body text pos
    | .leftAssoc operand operators na =>
      laLoop (fun e2 p => peval g fuel e2 text p) operand operators na fuel
        true .null .null 0 pos
    | .rightAssoc operand operators =>
      raLoop (fun e2 p => peval g fuel e2 text p) operand operators fuel [] 0 pos

/-- The message produced when `_run` invokes the stored error closure
`_result(_text, _pos)` after a failed parse.  `StringLiteral.compile_error_message`
returns `Expected <repr of the literal>.`; the error closures of `Choice`,
`ExpectNot`, `Fail`, `Where` and the regex literal are bare `return` statements, so
their message is `None`. -/
def errMessage : PExpr → Option String
  | .strLit v _ => some ("Expected " ++ String.mk [Char.ofNat 39] ++ v ++ String.mk [Char.ofNat 39] ++ ".")
  | _ => none

/-- The top of `_run` (and the generated `parse`): run the start rule from position
0; on success return the parsed value, on failure raise
`ParseError(message, pos)` where the message comes from the stored error closure. -/
def runParser (g : Grammar) (fuel : Nat) (text : List Char) :
    Option (Except (Option String × Nat) Value) :=
  match lookupRule g "start" with
  | none => none
  | some body =>
    match peval g fuel body text 0 with
    | none => none
    | some (.ok v _) => some (.ok v)
    | some (.err er p) => some (.error (errMessage er, p))

/-- The grammar `start = "abc" | "abd"` of spec scenario S5. -/
def abGrammar : Grammar :=
  [("start", .choice [.strLit "abc" false, .strLit "abd" false])]

/-- An atom matching one of the letters `a`, `b`, `c`, `d`. -/
def letterAtom : PExpr :=
  .choice [.strLit "a" false, .strLit "b" false, .strLit "c" false, .strLit "d" false]

/-- A grammar with an `_ignored` rule skipping blanks, as synthesized by
`generate_source_code` when ignored tokens exist. -/
def wsGrammar : Grammar := [("_ignored", .skip [.strLit " " false])]

/-- Property of an evaluation function: any returned outcome's position is at least
the starting position. -/
def EvPos (ev : PExpr → Nat → Option POut) : Prop :=
  ∀ e p o, ev e p = some o → p ≤ o.pos

/-- Modelled from the spec: an alternative collected for a `Recover` wrapper (the
`Recover` class lives in `sourcer/expressions.py`, which is not among the sources).
The buggy dispatch in `_create_parser` can append a plain one-character string where
an expression is expected, so the slot is a sum. -/
inductive RecoverAlt where
  | expr (e : PExpr)
  | strv (s : String)

/-- Modelled from the spec: a rule binding in the compilation environment is either
a plain body or a `Recover` wrapper holding the original body plus the collected
recovery alternatives, tried in registration order when the body fails. -/
inductive RuleBinding where
  | plain (body : PExpr)
  | recov (body : PExpr) (alts : List RecoverAlt)

/-- The compilation environment of `_create_parser`: name to bound rule value. -/
def Env := List (String × RuleBinding)

/-- Membership test `name in env`. -/
def envLookup : Env → String → Option RuleBinding
  | [], _ => none
  | (n, b) :: rest, name => if n = name then some b else envLookup rest name

/-- Dict update `env[name] = value` (insertion order preserved). -/
def envSet : Env → String → RuleBinding → Env
  | [], name, b => [(name, b)]
  | (n, v) :: rest, name, b =>
    if n = name then (n, b) :: rest else (n, v) :: envSet rest name b

/-- The recovery-application loop of `_create_parser` as written in the code:
`for name, recovery in recoveries:` iterates the dict's KEYS, so each iteration
tuple-unpacks a key string into two variables.  That raises `ValueError` unless the
rule name has exactly two characters; when it has two, `name` becomes the first
character and `recovery` the second character, and that one-character string is what
`add_recovery` receives. -/
def applyRecoveriesCode (env : Env) :
    List (String × List PExpr) → Except String Env
  | [] => .ok env
  | (key, _) :: rest =>
    match key.data with
    | [c1, c2] =>
      let name := String.mk [c1]
      let recovery := String.mk [c2]
      match envLookup env name with
      | none => .error ("Unknown rule in recover definition: " ++ name ++ ".")
      | some (.plain body) =>
        applyRecoveriesCode (envSet env name (.recov body [.strv recovery])) rest
      | some (.recov body alts) =>
        applyRecoveriesCode (envSet env name (.recov body (alts ++ [.strv recovery]))) rest
    | _ => .error "ValueError: too many values to unpack"

/-- Modelled from the spec (section 4.6 step 4): iterate the collected recoveries
as (rule name, alternatives) pairs; an unknown rule name fails compilation;
otherwise the target rule is rebound to a `Recover` wrapper holding its original
body plus the alternatives in registration order. -/
def applyRecoveriesSpec (env : Env) :
    List (String × List PExpr) → Except String Env
  | [] => .ok env
  | (name, recs) :: rest =>
    match envLookup env name with
    | none => .error ("Unknown rule in recover definition: " ++ name ++ ".")
    | some (.plain body) =>
      applyRecoveriesSpec (envSet env name (.recov body (recs.map RecoverAlt.expr))) rest
    | some (.recov body alts) =>
      applyRecoveriesSpec
        (envSet env name (.recov body (alts ++ recs.map RecoverAlt.expr))) rest

/-- A tiny environment for exercising the recovery loop. -/
def recEnvDemo : Env :=
  [("start", .plain (.ref "foo")), ("foo", .plain (.strLit "x" false))]

/-- The farthest-failure fold performed by `Choice`'s loop: starting from the pair
(initial error closure, initial farthest position), each failed alternative's
(error, position) replaces the accumulator exactly when its position is strictly
greater. -/
def chooseFold (init : PExpr × Nat) (ers : List (PExpr × Nat)) : PExpr × Nat :=
  ers.foldl (fun acc er => if acc.2 < er.2 then er else acc) init

/-- The claim's description of `Alt`: successive element results separated by
separator matches are collected into a list.  When the element fails immediately,
zero items are collected and the final position is the entry position; after a
successful separator followed by a failed element, the final position is after the
separator when `allow_trailer` is set and before it otherwise; the error data of
the evaluation that ended the run is kept for the zero-match decision. -/
def altDescribed (ev : PExpr → Nat → Option POut) (e sep : PExpr) (aT : Bool) :
    Nat → Nat → Option (List Value × Nat × PExpr × Nat)
  | 0, _ => none
  | n + 1, pos =>
    match ev e pos with
    | none => none
    | some (.err er ep) => some ([], pos, er, ep)
    | some (.ok v p1) =>
      match ev sep p1 with
      | none => none
      | some (.err er2 ep2) => some ([v], p1, er2, ep2)
      | some (.ok _ p2) =>
        match altDescribed ev e sep aT n p2 with
        | none => none
        | some ([], _, er, ep) => some ([v], (if aT then p2 else p1), er, ep)
        | some (v2 :: vs, q, er, ep) => some (v :: v2 :: vs, q, er, ep)

/-- Pointwise refinement between evaluation functions: every result of the first
is a result of the second. -/
def EvLe (ev ev' : PExpr → Nat → Option POut) : Prop :=
  ∀ e p r, ev e p = some r → ev' e p = some r

/-- The packrat memo table of `_run`: entries keyed by (rule continuation,
position), holding the final outcome triple of that call. -/
def Memo := List ((String × Nat) × POut)

/-- Lookup of a `(rule, pos)` key in the memo table. -/
def memoLookup : Memo → String → Nat → Option POut
  | [], _, _ => none
  | (k, r) :: rest, name, p =>
    if k.1 = name ∧ k.2 = p then some r else memoLookup rest name p

/-- Evaluation of a rule call as the pure evaluator performs it: look up the rule
continuation and run its body. -/
def pevalCall (g : Grammar) (fuel : Nat) (name : String) (text : List Char)
    (p : Nat) : Option POut :=
  match lookupRule g name with
  | none => none
  | some body => peval g fuel body text p

/-- Soundness of a memo table: every entry agrees with whatever the pure evaluator
returns for that (rule, position) pair, whenever the pure evaluator terminates. -/
def MemoCorrect (g : Grammar) (text : List Char) (m : Memo) : Prop :=
  ∀ name p r, memoLookup m name p = some r →
    ∀ f r', pevalCall g f name text p = some r' → r' = r

/-- A rule call through the driver: consult the memo for (rule, position); on a
hit return the stored triple without re-running the rule; on a miss run the rule
body and record the result. -/
def callRule (g : Grammar) (evB : PExpr → Nat → Memo → Option (POut × Memo))
    (name : String) (pos : Nat) (m : Memo) : Option (POut × Memo) :=
  match lookupRule g name with
  | none => none
  | some body =>
    match memoLookup m name pos with
    | some r => some (r, m)
    | none =>
      match evB body pos m with
      | none => none
      | some (r, m2) => some (r, ((name, pos), r) :: m2)

/-- Memo-threading version of `choiceLoop`. -/
def choiceLoopM (evM : PExpr → Nat → Memo → Option (POut × Memo)) :
    List PExpr → Nat → Nat → PExpr → Memo → Option (POut × Memo)
  | [], _, farthest, ferr, m => some (.err ferr farthest, m)
  | e :: rest, backtrack, farthest, ferr, m =>
    match evM e backtrack m with
    | none => none
    | some (.ok v p, m2) => some (.ok v p, m2)
    | some (.err er ep, m2) =>
      if farthest < ep then choiceLoopM evM rest backtrack ep er m2
      else choiceLoopM evM rest backtrack farthest ferr m2

/-- Memo-threading version of `seqLoop`. -/
def seqLoopM (evM : PExpr → Nat → Memo → Option (POut × Memo)) :
    List PExpr → List Value → Nat → Memo → Option (POut × Memo)
  | [], acc, pos, m => some (.ok (.list acc) pos, m)
  | e :: rest, acc, pos, m =>
    match evM e pos m with
    | none => none
    | some (.err er ep, m2) => some (.err er ep, m2)
    | some (.ok v p, m2) => seqLoopM evM rest (acc ++ [v]) p m2

/-- Memo-threading version of `listLoop`. -/
def listLoopM (evM : PExpr → Nat → Memo → Option (POut × Memo)) (e : PExpr) :
    Nat → List Value → Nat → Memo → Option ((List Value × Nat × PExpr) × Memo)
  | 0, _, _, _ => none
  | n + 1, acc, pos, m =>
    match evM e pos m with
    | none => none
    | some (.err er _, m2) => some ((acc, pos, er), m2)
    | some (.ok v p, m2) => listLoopM evM e n (acc ++ [v]) p m2

/-- Memo-threading version of `altLoop`. -/
def altLoopM (evM : PExpr → Nat → Memo → Option (POut × Memo)) (e sep : PExpr)
    (aT : Bool) :
    Nat → List Value → Nat → Nat → Memo →
      Option ((List Value × Nat × PExpr × Nat) × Memo)
  | 0, _, _, _, _ => none
  | n + 1, acc, checkpoint, pos, m =>
    match evM e pos m with
    | none => none
    | some (.err er ep, m2) => some ((acc, checkpoint, er, ep), m2)
    | some (.ok v p, m2) =>
      match evM sep p m2 with
      | none => none
      | some (.err er2 ep2, m3) => some ((acc ++ [v], p, er2, ep2), m3)
      | some (.ok _ p2, m3) =>
        altLoopM evM e sep aT n (acc ++ [v]) (if aT then p2 else p) p2 m3

/-- Memo-threading version of `sweep`. -/
def sweepM (evM : PExpr → Nat → Memo → Option (POut × Memo)) (c : Nat) :
    List PExpr → Memo → Option (Option Nat × Memo)
  | [], m => some (none, m)
  | e :: rest, m =>
    match evM e c m with
    | none => none
    | some (.ok _ p, m2) => some (some p, m2)
    | some (.err _ _, m2) => sweepM evM c rest m2

/-- Memo-threading version of `skipLoop`. -/
def skipLoopM (evM : PExpr → Nat → Memo → Option (POut × Memo)) (es : List PExpr) :
    Nat → Nat → Memo → Option (Nat × Memo)
  | 0, _, _ => none
  | n + 1, c, m =>
    match sweepM evM c es m with
    | none => none
    | some (none, m2) => some (c, m2)
    | some (some p, m2) => skipLoopM evM es n p m2

/-- Memo-threading version of `laLoop`. -/
def laLoopM (evM : PExpr → Nat → Memo → Option (POut × Memo))
    (operand operators : PExpr) (na : Bool) :
    Nat → Bool → Value → Value → Nat → Nat → Memo → Option (POut × Memo)
  | 0, _, _, _, _, _, _ => none
  | n + 1, isFirst, staging, opv, cp, pos, m =>
    match evM operand pos m with
    | none => none
    | some (.err er ep, m2) =>
      if isFirst then some (.err er ep, m2) else some (.ok staging cp, m2)
    | some (.ok v p, m2) =>
      let staging2 := if isFirst then v else .infixN staging opv v
      if !isFirst && na then some (.ok staging2 p, m2)
      else
        match evM operators p m2 with
        | none => none
        | some (.err _ _, m3) => some (.ok staging2 p, m3)
        | some (.ok opv2 p2, m3) =>
          laLoopM evM operand operators na n false staging2 opv2 p p2 m3

/-- Memo-threading version of `raLoop`. -/
def raLoopM (evM : PExpr → Nat → Memo → Option (POut × Memo))
    (operand operators : PExpr) :
    Nat → List (Value × Value) → Nat → Nat → Memo → Option (POut × Memo)
  | 0, _, _, _, _ => none
  | n + 1, spine, cp, pos, m =>
    match evM operand pos m with
    | none => none
    | some (.err er ep, m2) =>
      match spine.getLast? with
      | none => some (.err er ep, m2)
      | some pr => some (.ok (closeSpine spine.dropLast pr.1) cp, m2)
    | some (.ok v p, m2) =>
      match evM operators p m2 with
      | none => none
      | some (.err _ _, m3) => some (.ok (closeSpine spine v) p, m3)
      | some (.ok opv p2, m3) =>
        raLoopM evM operand operators n (spine ++ [(v, opv)]) p p2 m3

/-- The memoized driver: the same generated code as `peval`, with every rule call
(`Ref` dispatch and the skip-ignored call of a string literal) routed through the
`(rule, pos)` memo table as `_run` does. -/
def evalM (g : Grammar) : Nat → PExpr → List Char → Nat → Memo → Option (POut × Memo)
  | 0, _, _, _, _ => none
  | fuel + 1, e, text, pos, m =>
    match e with
    | .strLit v sk =>
      if v = "" then some (.ok (.str "") pos, m)
      else
        if (text.drop pos).take v.length = v.data then
          if sk then
            match callRule g (fun b p2 m2 => evalM g fuel b text p2 m2) "_ignored"
                (pos + v.length) m with
            | none => none
            | some (o, m2) => some (.ok (.str v) o.pos, m2)
          else some (.ok (.str v) (pos + v.length), m)
        else some (.err (.strLit v sk) pos, m)
    | .failE => some (.err .failE pos, m)
    | .choice es =>
      match es with
      | [] => none
      | _ :: _ =>
        choiceLoopM (fun e2 p m2 => evalM g fuel e2 text p m2) es pos pos (.choice es) m
    | .seq es => seqLoopM (fun e2 p m2 => evalM g fuel e2 text p m2) es [] pos m
    | .listE e2 allowEmpty =>
      match listLoopM (fun e3 p m2 => evalM g fuel e3 text p m2) e2 fuel [] pos m with
      | none => none
      | some ((acc, cp, er), m2) =>
        if allowEmpty || !acc.isEmpty then some (.ok (.list acc) cp, m2)
        else some (.err er cp, m2)
    | .alt e2 sep aT aE =>
      match altLoopM (fun e3 p m2 => evalM g fuel e3 text p m2) e2 sep aT fuel
          [] pos pos m with
      | none => none
      | some ((acc, cp, er, ep), m2) =>
        if aE || !acc.isEmpty then some (.ok (.list acc) cp, m2)
        else some (.err er ep, m2)
    | .opt e2 =>
      match evalM g fuel e2 text pos m with
      | none => none
      | some (.ok v p, m2) => some (.ok v p, m2)
      | some (.err _ _, m2) => some (.ok .null pos, m2)
    | .skip es =>
      match skipLoopM (fun e2 p m2 => evalM g fuel e2 text p m2) es fuel pos m with
      | none => none
      | some (q, m2) => some (.ok .null q, m2)
    | .ref name => callRule g (fun b p2 m2 => evalM g fuel b text p2 m2) name pos m
    | .leftAssoc operand operators na =>
      laLoopM (fun e2 p m2 => evalM g fuel e2 text p m2) operand operators na fuel
        true .null .null 0 pos m
    | .rightAssoc operand operators =>
      raLoopM (fun e2 p m2 => evalM g fuel e2 text p m2) operand operators fuel
        [] 0 pos m

/-- Simulation between a pure evaluation function and a memo-threading one,
relative to an invariant on tables: every pure result is reproduced with some
final table that keeps the invariant. -/
def EvSim (Inv : Memo → Prop) (ev : PExpr → Nat → Option POut)
    (evM : PExpr → Nat → Memo → Option (POut × Memo)) : Prop :=
  ∀ e p m r, Inv m → ev e p = some r → ∃ m2, evM e p m = some (r, m2) ∧ Inv m2

theorem choiceLoop_pos_le {ev : PExpr → Nat → Option POut} (hev : EvPos ev) :
    ∀ (es : List PExpr) (b f : Nat) (fe : PExpr) (o : POut),
      b ≤ f → choiceLoop ev es b f fe = some o → b ≤ o.pos := by
  intro es
  induction es with
  | nil =>
    intro b f fe o hbf h
    simp only [choiceLoop] at h
    cases h
    exact hbf
  | cons e rest ih =>
    intro b f fe o hbf h
    simp only [choiceLoop] at h
    cases hev2 : ev e b with
    | none => simp only [hev2] at h; cases h
    | some o2 =>
      cases o2 with
      | ok v p =>
        simp only [hev2] at h
        cases h
        exact hev _ _ _ hev2
      | err er ep =>
        simp only [hev2] at h
        by_cases hlt : f < ep
        · rw [if_pos hlt] at h
          exact ih b ep er o (hev _ _ _ hev2) h
        · rw [if_neg hlt] at h
          exact ih b f fe o hbf h

theorem seqLoop_pos_le {ev : PExpr → Nat → Option POut} (hev : EvPos ev) :
    ∀ (es : List PExpr) (acc : List Value) (pos : Nat) (o : POut),
      seqLoop ev es acc pos = some o → pos ≤ o.pos := by
  intro es
  induction es with
  | nil =>
    intro acc pos o h
    simp only [seqLoop] at h
    cases h
    exact Nat.le_refl _
  | cons e rest ih =>
    intro acc pos o h
    simp only [seqLoop] at h
    cases hev2 : ev e pos with
    | none => simp only [hev2] at h; cases h
    | some o2 =>
      cases o2 with
      | ok v p =>
        simp only [hev2] at h
        exact Nat.le_trans (hev _ _ _ hev2) (ih _ _ _ h)
      | err er ep =>
        simp only [hev2] at h
        cases h
        exact hev _ _ _ hev2

theorem listLoop_pos_le {ev : PExpr → Nat → Option POut} {e : PExpr} (hev : EvPos ev) :
    ∀ (n : Nat) (acc : List Value) (pos : Nat) (r : List Value × Nat × PExpr),
      listLoop ev e n acc pos = some r → pos ≤ r.2.1 := by
  intro n
  induction n with
  | zero => intro acc pos r h; cases h
  | succ n ih =>
    intro acc pos r h
    simp only [listLoop] at h
    cases hev2 : ev e pos with
    | none => simp only [hev2] at h; cases h
    | some o2 =>
      cases o2 with
      | ok v p =>
        simp only [hev2] at h
        exact Nat.le_trans (hev _ _ _ hev2) (ih _ _ _ h)
      | err er ep =>
        simp only [hev2] at h
        cases h
        exact Nat.le_refl _

theorem altLoop_pos_le {ev : PExpr → Nat → Option POut} {e sep : PExpr} {aT : Bool}
    (hev : EvPos ev) :
    ∀ (n : Nat) (base : Nat) (acc : List Value) (cp pos : Nat)
      (r : List Value × Nat × PExpr × Nat),
      base ≤ cp → base ≤ pos → altLoop ev e sep aT n acc cp pos = some r →
      base ≤ r.2.1 ∧ base ≤ r.2.2.2 := by
  intro n
  induction n with
  | zero => intro base acc cp pos r h1 h2 h; cases h
  | succ n ih =>
    intro base acc cp pos r hcp hpos h
    simp only [altLoop] at h
    cases hev2 : ev e pos with
    | none => simp only [hev2] at h; cases h
    | some o2 =>
      cases o2 with
      | err er ep =>
        simp only [hev2] at h
        cases h
        exact ⟨hcp, Nat.le_trans hpos (hev _ _ _ hev2)⟩
      | ok v p =>
        simp only [hev2] at h
        have hp : base ≤ p := Nat.le_trans hpos (hev _ _ _ hev2)
        cases hev3 : ev sep p with
        | none => simp only [hev3] at h; cases h
        | some o3 =>
          cases o3 with
          | err er2 ep2 =>
            simp only [hev3] at h
            cases h
            exact ⟨hp, Nat.le_trans hp (hev _ _ _ hev3)⟩
          | ok v2 p2 =>
            simp only [hev3] at h
            have hp2 : base ≤ p2 := Nat.le_trans hp (hev _ _ _ hev3)
            refine ih base _ _ _ _ ?_ hp2 h
            cases aT with
            | true => exact hp2
            | false => exact hp

theorem sweep_pos_le {ev : PExpr → Nat → Option POut} (hev : EvPos ev) :
    ∀ (es : List PExpr) (c p : Nat), sweep ev c es = some (some p) → c ≤ p := by
  intro es
  induction es with
  | nil => intro c p h; injection h with h2; cases h2
  | cons e rest ih =>
    intro c p h
    simp only [sweep] at h
    cases hev2 : ev e c with
    | none => simp only [hev2] at h; cases h
    | some o2 =>
      cases o2 with
      | ok v q =>
        simp only [hev2] at h
        cases h
        exact hev _ _ _ hev2
      | err er ep =>
        simp only [hev2] at h
        exact ih c p h

theorem skipLoop_pos_le {ev : PExpr → Nat → Option POut} {es : List PExpr}
    (hev : EvPos ev) :
    ∀ (n c q : Nat), skipLoop ev es n c = some q → c ≤ q := by
  intro n
  induction n with
  | zero => intro c q h; cases h
  | succ n ih =>
    intro c q h
    simp only [skipLoop] at h
    cases hs : sweep ev c es with
    | none => simp only [hs] at h; cases h
    | some o =>
      cases o with
      | none =>
        simp only [hs] at h
        cases h
        exact Nat.le_refl _
      | some p =>
        simp only [hs] at h
        exact Nat.le_trans (sweep_pos_le hev es c p hs) (ih p q h)

theorem laLoop_pos_le {ev : PExpr → Nat → Option POut} {operand operators : PExpr}
    {na : Bool} (hev : EvPos ev) :
    ∀ (n : Nat) (base : Nat) (isFirst : Bool) (staging opv : Value) (cp pos : Nat)
      (o : POut),
      (isFirst = true ∨ base ≤ cp) → base ≤ pos →
      laLoop ev operand operators na n isFirst staging opv cp pos = some o →
      base ≤ o.pos := by
  intro n
  induction n with
  | zero => intro base isFirst staging opv cp pos o h1 h2 h; cases h
  | succ n ih =>
    intro base isFirst staging opv cp pos o hcp hpos h
    simp only [laLoop] at h
    cases hev2 : ev operand pos with
    | none => simp only [hev2] at h; cases h
    | some o2 =>
      cases o2 with
      | err er ep =>
        simp only [hev2] at h
        cases isFirst with
        | true =>
          rw [if_pos rfl] at h
          cases h
          exact Nat.le_trans hpos (hev _ _ _ hev2)
        | false =>
          rw [if_neg Bool.false_ne_true] at h
          cases h
          rcases hcp with h1 | h1
          · cases h1
          · exact h1
      | ok v p =>
        simp only [hev2] at h
        have hp : base ≤ p := Nat.le_trans hpos (hev _ _ _ hev2)
        cases hna : (!isFirst && na) with
        | true =>
          rw [hna, if_pos rfl] at h
          cases h
          exact hp
        | false =>
          rw [hna, if_neg Bool.false_ne_true] at h
          cases hev3 : ev operators p with
          | none => simp only [hev3] at h; cases h
          | some o3 =>
            cases o3 with
            | err er2 ep2 =>
              simp only [hev3] at h
              cases h
              exact hp
            | ok opv2 p2 =>
              simp only [hev3] at h
              exact ih base false _ opv2 p p2 o (Or.inr hp)
                (Nat.le_trans hp (hev _ _ _ hev3)) h

theorem raLoop_pos_le {ev : PExpr → Nat → Option POut} {operand operators : PExpr}
    (hev : EvPos ev) :
    ∀ (n : Nat) (base : Nat) (spine : List (Value × Value)) (cp pos : Nat) (o : POut),
      (spine = [] ∨ base ≤ cp) → base ≤ pos →
      raLoop ev operand operators n spine cp pos = some o → base ≤ o.pos := by
  intro n
  induction n with
  | zero => intro base spine cp pos o h1 h2 h; cases h
  | succ n ih =>
    intro base spine cp pos o hcp hpos h
    simp only [raLoop] at h
    cases hev2 : ev operand pos with
    | none => simp only [hev2] at h; cases h
    | some o2 =>
      cases o2 with
      | err er ep =>
        simp only [hev2] at h
        cases hlast : spine.getLast? with
        | none =>
          simp only [hlast] at h
          cases h
          exact Nat.le_trans hpos (hev _ _ _ hev2)
        | some pr =>
          simp only [hlast] at h
          cases h
          rcases hcp with h1 | h1
          · rw [h1] at hlast; cases hlast
          · exact h1
      | ok v p =>
        simp only [hev2] at h
        have hp : base ≤ p := Nat.le_trans hpos (hev _ _ _ hev2)
        cases hev3 : ev operators p with
        | none => simp only [hev3] at h; cases h
        | some o3 =>
          cases o3 with
          | err er2 ep2 =>
            simp only [hev3] at h
            cases h
            exact hp
          | ok opv p2 =>
            simp only [hev3] at h
            exact ih base _ p p2 o (Or.inr hp) (Nat.le_trans hp (hev _ _ _ hev3)) h

/-- No evaluation of generated code moves the position backwards: whatever the
outcome, the reported position is at least the entry position. -/
theorem peval_pos_le (g : Grammar) :
    ∀ (fuel : Nat) (e : PExpr) (text : List Char) (pos : Nat) (o : POut),
      peval g fuel e text pos = some o → pos ≤ o.pos := by
  intro fuel
  induction fuel with
  | zero => intro e text pos o h; cases h
  | succ fuel ih =>
    intro e text pos o h
    have hev : EvPos (fun e2 p => peval g fuel e2 text p) :=
      fun e2 p o2 h2 => ih e2 text p o2 h2
    cases e with
    | strLit v sk =>
      simp only [peval] at h
      by_cases hv : v = ""
      · rw [if_pos hv] at h
        cases h
        exact Nat.le_refl _
      · rw [if_neg hv] at h
        by_cases hm : (text.drop pos).take v.length = v.data
        · rw [if_pos hm] at h
          cases sk with
          | false =>
            rw [if_neg Bool.false_ne_true] at h
            cases h
            exact Nat.le_add_right _ _
          | true =>
            rw [if_pos rfl] at h
            cases hlk : lookupRule g "_ignored" with
            | none => simp only [hlk] at h; cases h
            | some body =>
              simp only [hlk] at h
              cases hin : peval g fuel body text (pos + v.length) with
              | none => simp only [hin] at h; cases h
              | some o2 =>
                simp only [hin] at h
                cases h
                exact Nat.le_trans (Nat.le_add_right _ _) (ih body text (pos + v.length) o2 hin)
        · rw [if_neg hm] at h
          cases h
          exact Nat.le_refl _
    | failE =>
      simp only [peval] at h
      cases h
      exact Nat.le_refl _
    | choice es =>
      cases es with
      | nil => simp only [peval] at h; cases h
      | cons e2 rest =>
        simp only [peval] at h
        exact choiceLoop_pos_le hev _ _ _ _ _ (Nat.le_refl _) h
    | seq es =>
      simp only [peval] at h
      exact seqLoop_pos_le hev _ _ _ _ h
    | listE e2 allowEmpty =>
      simp only [peval] at h
      cases hl : listLoop (fun e3 p => peval g fuel e3 text p) e2 fuel [] pos with
      | none => simp only [hl] at h; cases h
      | some r =>
        obtain ⟨acc, cp, er⟩ := r
        simp only [hl] at h
        have hle : pos ≤ cp := listLoop_pos_le hev _ _ _ _ hl
        by_cases hb : (allowEmpty || !acc.isEmpty) = true
        · rw [if_pos hb] at h; cases h; exact hle
        · rw [if_neg hb] at h; cases h; exact hle
    | alt e2 sep aT aE =>
      simp only [peval] at h
      cases hl : altLoop (fun e3 p => peval g fuel e3 text p) e2 sep aT fuel [] pos pos with
      | none => simp only [hl] at h; cases h
      | some r =>
        obtain ⟨acc, cp, er, ep⟩ := r
        simp only [hl] at h
        have hle := altLoop_pos_le hev fuel pos [] pos pos _ (Nat.le_refl _) (Nat.le_refl _) hl
        by_cases hb : (aE || !acc.isEmpty) = true
        · rw [if_pos hb] at h; cases h; exact hle.1
        · rw [if_neg hb] at h; cases h; exact hle.2
    | opt e2 =>
      simp only [peval] at h
      cases hin : peval g fuel e2 text pos with
      | none => simp only [hin] at h; cases h
      | some o2 =>
        cases o2 with
        | ok v p =>
          simp only [hin] at h
          cases h
          exact ih _ _ _ _ hin
        | err er ep =>
          simp only [hin] at h
          cases h
          exact Nat.le_refl _
    | skip es =>
      simp only [peval] at h
      cases hl : skipLoop (fun e2 p => peval g fuel e2 text p) es fuel pos with
      | none => simp only [hl] at h; cases h
      | some q =>
        simp only [hl] at h
        cases h
        exact skipLoop_pos_le hev _ _ _ hl
    | ref name =>
      simp only [peval] at h
      cases hlk : lookupRule g name with
      | none => simp only [hlk] at h; cases h
      | some body =>
        simp only [hlk] at h
        exact ih _ _ _ _ h
    | leftAssoc operand operators na =>
      simp only [peval] at h
      exact laLoop_pos_le hev fuel pos true .null .null 0 pos o (Or.inl rfl) (Nat.le_refl _) h
    | rightAssoc operand operators =>
      simp only [peval] at h
      exact raLoop_pos_le hev fuel pos [] 0 pos o (Or.inl rfl) (Nat.le_refl _) h

/-- The exit condition of `Skip`'s loop: if the loop returned position `q`, then the
final sweep found every listed expression failing at `q`. -/
theorem skipLoop_exit {ev : PExpr → Nat → Option POut} {es : List PExpr} :
    ∀ (n c q : Nat), skipLoop ev es n c = some q → sweep ev q es = some none := by
  intro n
  induction n with
  | zero => intro c q h; cases h
  | succ n ih =>
    intro c q h
    simp only [skipLoop] at h
    cases hs : sweep ev c es with
    | none => simp only [hs] at h; cases h
    | some o =>
      cases o with
      | none => simp only [hs] at h; cases h; exact hs
      | some p => simp only [hs] at h; exact ih p q h

/-- Claim C3 (amended): for every expression and input, a successful evaluation
returns a new position greater than or equal to the starting position.  The
strict-increase half of the original claim is refuted by
`claim_C3_counterexample`. -/
theorem claim_C3_theorem (g : Grammar) (fuel : Nat) (e : PExpr) (text : List Char)
    (pos : Nat) (v : Value) (p : Nat)
    (h : peval g fuel e text pos = some (.ok v p)) : pos ≤ p :=
  peval_pos_le g fuel e text pos (.ok v p) h

/-- Claim C3 counterexample: `List("a", allow_empty=True)` on input `"b"` succeeds
with the position unchanged, although its `always_succeeds()` is `False` (the
`List` class does not override the `Expr` default), so a successful parse need not
strictly advance when `always_succeeds` is false. -/
theorem claim_C3_counterexample :
    peval [] 5 (.listE (.strLit "a" false) true) "b".toList 0 =
      some (.ok (.list []) 0) ∧
    alwaysSucceeds (.listE (.strLit "a" false) true) = false :=
  ⟨rfl, rfl⟩

/-- Concrete instantiation of `claim_C3_theorem`. -/
theorem claim_C3_witness : (0 : Nat) ≤ 1 :=
  claim_C3_theorem [] 5 (.strLit "a" false) "a".toList 0 (.str "a") 1 rfl

/-- Claim C7: `Opt(e)` propagates an inner success unchanged, and converts an inner
failure into success with a null result at the original starting position. -/
theorem claim_C7_theorem (g : Grammar) (fuel : Nat) (e : PExpr) (text : List Char)
    (pos : Nat) :
    (∀ v p, peval g fuel e text pos = some (.ok v p) →
      peval g (fuel + 1) (.opt e) text pos = some (.ok v p)) ∧
    (∀ er ep, peval g fuel e text pos = some (.err er ep) →
      peval g (fuel + 1) (.opt e) text pos = some (.ok .null pos)) := by
  constructor
  · intro v p hin
    simp only [peval, hin]
  · intro er ep hin
    simp only [peval, hin]

/-- Concrete instantiation of `claim_C7_theorem`: `Opt("a")` advancing like the
inner literal on `"a"`, and succeeding with null without advancing on `"b"`. -/
theorem claim_C7_witness :
    peval [] 6 (.opt (.strLit "a" false)) "a".toList 0 = some (.ok (.str "a") 1) ∧
    peval [] 6 (.opt (.strLit "a" false)) "b".toList 0 = some (.ok .null 0) :=
  ⟨(claim_C7_theorem [] 5 (.strLit "a" false) "a".toList 0).1 (.str "a") 1 rfl,
   (claim_C7_theorem [] 5 (.strLit "a" false) "b".toList 0).2 (.strLit "a" false) 0 rfl⟩

/-- Claim C9: `Skip` returns success with a null result, and running the same
`Skip` again from the position where the first run stopped advances by zero. -/
theorem claim_C9_theorem (g : Grammar) (fuel : Nat) (es : List PExpr)
    (text : List Char) (pos : Nat) (v : Value) (q : Nat)
    (h : peval g fuel (.skip es) text pos = some (.ok v q)) :
    v = Value.null ∧ peval g fuel (.skip es) text q = some (.ok .null q) := by
  cases fuel with
  | zero => cases h
  | succ fuel =>
    simp only [peval] at h ⊢
    cases hl : skipLoop (fun e2 p => peval g fuel e2 text p) es fuel pos with
    | none => simp only [hl] at h; cases h
    | some q2 =>
      simp only [hl] at h
      cases h
      refine ⟨rfl, ?_⟩
      have hx : sweep (fun e2 p => peval g fuel e2 text p) q es = some none :=
        skipLoop_exit fuel pos q hl
      cases fuel with
      | zero => cases hl
      | succ m => simp only [skipLoop, hx]

/-- Concrete instantiation of `claim_C9_theorem`: `Skip("a")` on `"aab"` stops at
position 2; run again from 2 it stays at 2. -/
theorem claim_C9_witness :
    Value.null = Value.null ∧
    peval [] 10 (.skip [.strLit "a" false]) "aab".toList 2 = some (.ok .null 2) :=
  claim_C9_theorem [] 10 [.strLit "a" false] "aab".toList 0 .null 2 rfl

/-- Claim C10: the empty string literal succeeds at every position of every input
with the position unchanged, returning the empty string, and takes no skip-ignored
step even when the flag is set (the generated code returns before the
`skip_ignored` logic); a non-empty literal with the flag set does consume ignored
text through the `_ignored` rule. -/
theorem claim_C10_theorem :
    (∀ (g : Grammar) (fuel : Nat) (sk : Bool) (text : List Char) (pos : Nat),
      peval g (fuel + 1) (.strLit "" sk) text pos = some (.ok (.str "") pos)) ∧
    peval wsGrammar 20 (.strLit "a" true) "a  b".toList 0 = some (.ok (.str "a") 3) ∧
    peval wsGrammar 20 (.strLit "" true) "a  b".toList 1 = some (.ok (.str "") 1) := by
  refine ⟨?_, rfl, rfl⟩
  intro g fuel sk text pos
  rfl

/-- Claim C5: over `a+b+c+d`, one `LeftAssoc` level folds into left-nested `Infix`
nodes, `RightAssoc` folds into right-nested `Infix` nodes, and `NonAssoc` succeeds
after `a+b` (position 3), leaving `+c+d` unconsumed. -/
theorem claim_C5_theorem :
    peval [] 40 (.leftAssoc letterAtom (.strLit "+" false) false) "a+b+c+d".toList 0 =
      some (.ok (.infixN (.infixN (.infixN (.str "a") (.str "+") (.str "b"))
        (.str "+") (.str "c")) (.str "+") (.str "d")) 7) ∧
    peval [] 40 (.rightAssoc letterAtom (.strLit "+" false)) "a+b+c+d".toList 0 =
      some (.ok (.infixN (.str "a") (.str "+") (.infixN (.str "b") (.str "+")
        (.infixN (.str "c") (.str "+") (.str "d")))) 7) ∧
    peval [] 40 (.leftAssoc letterAtom (.strLit "+" false) true) "a+b+c+d".toList 0 =
      some (.ok (.infixN (.str "a") (.str "+") (.str "b")) 3) :=
  ⟨rfl, rfl, rfl⟩

/-- Claim C2 counterexample: on input `"abe"` against `start = "abc" | "abd"` the
parser raises `ParseError` at position 0 with message `None`, not at position 2
with a message naming one of the literals: string literals fail without consuming,
so both alternatives fail at the starting position and the `Choice`'s own error
closure (whose message is `None`) is kept. -/
theorem claim_C2_counterexample :
    runParser abGrammar 20 "abe".toList = some (.error (none, 0)) ∧
    runParser abGrammar 20 "abe".toList ≠
      some (.error (errMessage (.strLit "abd" false), 2)) ∧
    runParser abGrammar 20 "abe".toList ≠
      some (.error (errMessage (.strLit "abc" false), 2)) := by
  refine ⟨rfl, ?_, ?_⟩
  · intro hc
    rw [show runParser abGrammar 20 "abe".toList =
      some (.error ((none : Option String), (0 : Nat))) from rfl] at hc
    simp [errMessage] at hc
  · intro hc
    rw [show runParser abGrammar 20 "abe".toList =
      some (.error ((none : Option String), (0 : Nat))) from rfl] at hc
    simp [errMessage] at hc

/-- Claim C2 (amended): parsing `"abe"` against `start = "abc" | "abd"` raises
`ParseError` with `pos == 0` and message `None` (the `Choice`'s generic error),
while `"abd"` parses successfully. -/
theorem claim_C2_theorem :
    runParser abGrammar 20 "abe".toList = some (.error (none, 0)) ∧
    runParser abGrammar 20 "abd".toList = some (.ok (.str "abd")) :=
  ⟨rfl, rfl⟩

/-- Claim C6: with a single collected recovery targeting the (existing) rule
`foo`, the code raises `ValueError` while unpacking the dict key `"foo"` instead of
rebinding the rule, whereas the spec-modelled step rebinds `foo` to a `Recover`
wrapper holding its body and the alternative. -/
theorem claim_C6_theorem :
    applyRecoveriesCode recEnvDemo [("foo", [.strLit "y" false])] =
      .error "ValueError: too many values to unpack" ∧
    applyRecoveriesSpec recEnvDemo [("foo", [.strLit "y" false])] =
      .ok [("start", .plain (.ref "foo")),
        ("foo", .recov (.strLit "x" false) [.expr (.strLit "y" false)])] :=
  ⟨rfl, rfl⟩

theorem chooseFold_cons (init er : PExpr × Nat) (rest : List (PExpr × Nat)) :
    chooseFold init (er :: rest) =
      chooseFold (if init.2 < er.2 then er else init) rest := rfl

theorem chooseFold_init_le :
    ∀ (l : List (PExpr × Nat)) (init : PExpr × Nat), init.2 ≤ (chooseFold init l).2 := by
  intro l
  induction l with
  | nil => intro init; exact Nat.le_refl _
  | cons er rest ih =>
    intro init
    rw [chooseFold_cons]
    by_cases hlt : init.2 < er.2
    · rw [if_pos hlt]
      exact Nat.le_trans (Nat.le_of_lt hlt) (ih er)
    · rw [if_neg hlt]
      exact ih init

theorem chooseFold_mem_le :
    ∀ (l : List (PExpr × Nat)) (init er : PExpr × Nat),
      er ∈ l → er.2 ≤ (chooseFold init l).2 := by
  intro l
  induction l with
  | nil => intro init er h; cases h
  | cons hd rest ih =>
    intro init er hm
    rw [chooseFold_cons]
    cases hm with
    | head =>
      by_cases hlt : init.2 < hd.2
      · rw [if_pos hlt]
        exact chooseFold_init_le rest hd
      · rw [if_neg hlt]
        exact Nat.le_trans (Nat.le_of_not_lt hlt) (chooseFold_init_le rest init)
    | tail _ hm => exact ih _ er hm

theorem chooseFold_eq_or_mem :
    ∀ (l : List (PExpr × Nat)) (init : PExpr × Nat),
      chooseFold init l = init ∨ chooseFold init l ∈ l := by
  intro l
  induction l with
  | nil => intro init; exact Or.inl rfl
  | cons hd rest ih =>
    intro init
    rw [chooseFold_cons]
    by_cases hlt : init.2 < hd.2
    · rw [if_pos hlt]
      rcases ih hd with h | h
      · rw [h]; exact Or.inr (List.mem_cons_self _ _)
      · exact Or.inr (List.mem_cons_of_mem _ h)
    · rw [if_neg hlt]
      rcases ih init with h | h
      · exact Or.inl h
      · exact Or.inr (List.mem_cons_of_mem _ h)

theorem chooseFold_eq_init_of_le :
    ∀ (l : List (PExpr × Nat)) (init : PExpr × Nat),
      (chooseFold init l).2 ≤ init.2 → chooseFold init l = init := by
  intro l
  induction l with
  | nil => intro init h; rfl
  | cons hd rest ih =>
    intro init h
    rw [chooseFold_cons] at h ⊢
    by_cases hlt : init.2 < hd.2
    · rw [if_pos hlt] at h ⊢
      exact absurd h
        (Nat.not_le_of_lt (Nat.lt_of_lt_of_le hlt (chooseFold_init_le rest hd)))
    · rw [if_neg hlt] at h ⊢
      exact ih init h

theorem chooseFold_find :
    ∀ (l : List (PExpr × Nat)) (init : PExpr × Nat),
      init.2 < (chooseFold init l).2 →
      l.find? (fun er => er.2 == (chooseFold init l).2) = some (chooseFold init l) := by
  intro l
  induction l with
  | nil => intro init h; exact absurd h (Nat.lt_irrefl _)
  | cons hd rest ih =>
    intro init h
    rw [chooseFold_cons] at h ⊢
    by_cases hlt : init.2 < hd.2
    · rw [if_pos hlt] at h ⊢
      by_cases h2 : hd.2 < (chooseFold hd rest).2
      · have hne : (hd.2 == (chooseFold hd rest).2) = false := by
          simp only [beq_eq_false_iff_ne]
          exact Nat.ne_of_lt h2
        simp only [List.find?, hne]
        exact ih hd h2
      · have hM : chooseFold hd rest = hd :=
          chooseFold_eq_init_of_le rest hd (Nat.le_of_not_lt h2)
        rw [hM]
        simp [List.find?]
    · rw [if_neg hlt] at h ⊢
      have hlt2 : hd.2 < (chooseFold init rest).2 :=
        Nat.lt_of_le_of_lt (Nat.le_of_not_lt hlt) h
      have hne : (hd.2 == (chooseFold init rest).2) = false := by
        simp only [beq_eq_false_iff_ne]
        exact Nat.ne_of_lt hlt2
      simp only [List.find?, hne]
      exact ih init h

/-- When every alternative fails, `Choice`'s loop returns the farthest-failure
fold of the alternatives' (error, position) pairs over the initial accumulator. -/
theorem choiceLoop_all_fail {ev : PExpr → Nat → Option POut} :
    ∀ {es : List PExpr} {ers : List (PExpr × Nat)} (b : Nat) (init : PExpr × Nat),
      List.Forall₂ (fun e er => ev e b = some (.err er.1 er.2)) es ers →
      choiceLoop ev es b init.2 init.1 =
        some (.err (chooseFold init ers).1 (chooseFold init ers).2) := by
  intro es ers b init hall
  induction hall generalizing init with
  | nil => simp [choiceLoop, chooseFold]
  | @cons a er l1 l2 h1 h2 ih =>
    rw [chooseFold_cons]
    simp only [choiceLoop, h1]
    by_cases hlt : init.2 < er.2
    · rw [if_pos hlt, if_pos hlt]
      exact ih _
    · rw [if_neg hlt, if_neg hlt]
      exact ih init

/-- Failure positions recorded for the alternatives are at least the starting
position. -/
theorem forall2_err_pos_le {g : Grammar} {fuel : Nat} {text : List Char} {pos : Nat} :
    ∀ {es : List PExpr} {ers : List (PExpr × Nat)},
      List.Forall₂
        (fun e er => peval g fuel e text pos = some (.err er.1 er.2)) es ers →
      ∀ er ∈ ers, pos ≤ er.2 := by
  intro es ers hall
  induction hall with
  | nil => intro er h; cases h
  | cons h1 h2 ih =>
    intro er hm
    cases hm with
    | head => exact peval_pos_le g fuel _ text pos _ h1
    | tail _ hm => exact ih er hm

/-- Claim C1 (amended): when every alternative of a `Choice` fails, each is tried
from the starting position, the returned failure position is the maximum of the
alternatives' failure positions, and the error returned is that of the first
alternative attaining the maximum provided the maximum strictly exceeds the
starting position; when every alternative fails exactly at the starting position,
the `Choice`'s own error closure is returned instead. -/
theorem claim_C1_theorem (g : Grammar) (fuel : Nat) (text : List Char) (pos : Nat)
    (es : List PExpr) (ers : List (PExpr × Nat)) (hne : es ≠ [])
    (hall : List.Forall₂
      (fun e er => peval g fuel e text pos = some (.err er.1 er.2)) es ers) :
    ∃ E P, peval g (fuel + 1) (.choice es) text pos = some (.err E P) ∧
      (∀ q ∈ ers.map Prod.snd, q ≤ P) ∧ P ∈ ers.map Prod.snd ∧
      (pos < P → ers.find? (fun er => er.2 == P) = some (E, P)) ∧
      (P = pos → E = .choice es) := by
  refine ⟨(chooseFold (.choice es, pos) ers).1, (chooseFold (.choice es, pos) ers).2,
    ?_, ?_, ?_, ?_, ?_⟩
  · cases es with
    | nil => exact absurd rfl hne
    | cons e rest =>
      simp only [peval]
      exact choiceLoop_all_fail pos (.choice (e :: rest), pos) hall
  · intro q hq
    obtain ⟨er, hmem, rfl⟩ := List.mem_map.1 hq
    exact chooseFold_mem_le ers _ er hmem
  · rcases chooseFold_eq_or_mem ers (.choice es, pos) with hcf | hcf
    · have hne2 : ers ≠ [] := by
        intro hnil
        rw [hnil] at hall
        cases hall
        exact hne rfl
      obtain ⟨er0, hmem⟩ := List.exists_mem_of_ne_nil ers hne2
      have h1 : pos ≤ er0.2 := forall2_err_pos_le hall er0 hmem
      have h2 : er0.2 ≤ (chooseFold (.choice es, pos) ers).2 :=
        chooseFold_mem_le ers _ er0 hmem
      have h3 : (chooseFold (.choice es, pos) ers).2 = pos := by rw [hcf]
      have h2b : er0.2 ≤ pos := h3 ▸ h2
      have h4 : (chooseFold (.choice es, pos) ers).2 = er0.2 := by
        rw [h3]
        exact (Nat.le_antisymm h2b h1).symm
      rw [h4]
      exact List.mem_map_of_mem Prod.snd hmem
    · exact List.mem_map_of_mem Prod.snd hcf
  · intro hpos
    exact chooseFold_find ers (.choice es, pos) hpos
  · intro hP
    have : chooseFold (.choice es, pos) ers = (.choice es, pos) :=
      chooseFold_eq_init_of_le ers _ (Nat.le_of_eq hP)
    rw [this]

/-- Claim C1 counterexample: for `Choice("a", "b")` on input `"x"`, both
alternatives fail at position 0 (the starting position, hence the maximum of the
failure positions), yet the error closure returned is the `Choice`'s own, not that
of the first alternative attaining the maximum. -/
theorem claim_C1_counterexample :
    peval [] 5 (.strLit "a" false) "x".toList 0 = some (.err (.strLit "a" false) 0) ∧
    peval [] 5 (.strLit "b" false) "x".toList 0 = some (.err (.strLit "b" false) 0) ∧
    peval [] 6 (.choice [.strLit "a" false, .strLit "b" false]) "x".toList 0 =
      some (.err (.choice [.strLit "a" false, .strLit "b" false]) 0) ∧
    PExpr.choice [.strLit "a" false, .strLit "b" false] ≠ .strLit "a" false ∧
    PExpr.choice [.strLit "a" false, .strLit "b" false] ≠ .strLit "b" false := by
  refine ⟨rfl, rfl, rfl, ?_, ?_⟩
  · intro hc; cases hc
  · intro hc; cases hc

/-- Concrete instantiation of `claim_C1_theorem`: the first alternative fails at
position 1, the second at position 0; the maximum is 1 and the first alternative's
error (the inner literal `"x"`) is returned at position 1. -/
theorem claim_C1_witness :
    ∃ E P, peval [] 10
        (.choice [.seq [.strLit "a" false, .strLit "x" false], .strLit "z" false])
        "ab".toList 0 = some (.err E P) ∧
      (∀ q ∈ ([(.strLit "x" false, 1), (.strLit "z" false, 0)] :
        List (PExpr × Nat)).map Prod.snd, q ≤ P) ∧
      P ∈ ([(.strLit "x" false, 1), (.strLit "z" false, 0)] :
        List (PExpr × Nat)).map Prod.snd ∧
      (0 < P → ([(.strLit "x" false, 1), (.strLit "z" false, 0)] :
        List (PExpr × Nat)).find? (fun er => er.2 == P) = some (E, P)) ∧
      (P = 0 → E = .choice [.seq [.strLit "a" false, .strLit "x" false],
        .strLit "z" false]) :=
  claim_C1_theorem [] 9 "ab".toList 0
    [.seq [.strLit "a" false, .strLit "x" false], .strLit "z" false]
    [(.strLit "x" false, 1), (.strLit "z" false, 0)]
    (by intro hc; cases hc)
    (List.Forall₂.cons rfl (List.Forall₂.cons rfl List.Forall₂.nil))

theorem altLoop_eq_described {ev : PExpr → Nat → Option POut} {e sep : PExpr}
    {aT : Bool} :
    ∀ (n : Nat) (acc : List Value) (cp pos : Nat),
      altLoop ev e sep aT n acc cp pos =
        (altDescribed ev e sep aT n pos).map
          (fun r => (acc ++ r.1, (if r.1.isEmpty then cp else r.2.1), r.2.2)) := by
  intro n
  induction n with
  | zero => intro acc cp pos; rfl
  | succ n ih =>
    intro acc cp pos
    simp only [altLoop, altDescribed]
    cases hev2 : ev e pos with
    | none => rfl
    | some o2 =>
      cases o2 with
      | err er ep => simp
      | ok v p1 =>
        simp only []
        cases hev3 : ev sep p1 with
        | none => rfl
        | some o3 =>
          cases o3 with
          | err er2 ep2 => simp
          | ok v2 p2 =>
            simp only []
            rw [ih]
            cases hd : altDescribed ev e sep aT n p2 with
            | none => rfl
            | some r =>
              obtain ⟨vs, q, er, ep⟩ := r
              cases vs with
              | nil => simp
              | cons v3 vs3 => simp

theorem altDescribed_nil_pos {ev : PExpr → Nat → Option POut} {e sep : PExpr}
    {aT : Bool} :
    ∀ (n pos : Nat) (r : List Value × Nat × PExpr × Nat),
      altDescribed ev e sep aT n pos = some r → r.1 = [] → r.2.1 = pos := by
  intro n pos r h hnil
  cases n with
  | zero => cases h
  | succ n =>
    simp only [altDescribed] at h
    cases hev2 : ev e pos with
    | none => simp only [hev2] at h; cases h
    | some o2 =>
      cases o2 with
      | err er ep => simp only [hev2] at h; cases h; rfl
      | ok v p1 =>
        simp only [hev2] at h
        cases hev3 : ev sep p1 with
        | none => simp only [hev3] at h; cases h
        | some o3 =>
          cases o3 with
          | err er2 ep2 => simp only [hev3] at h; cases h; cases hnil
          | ok v2 p2 =>
            simp only [hev3] at h
            cases hd : altDescribed ev e sep aT n p2 with
            | none => simp only [hd] at h; cases h
            | some r2 =>
              obtain ⟨vs, q, er, ep⟩ := r2
              cases vs with
              | nil => simp only [hd] at h; cases h; cases hnil
              | cons v3 vs3 => simp only [hd] at h; cases h; cases hnil

/-- Claim C8: `Alt(e, sep, allow_trailer, allow_empty)` behaves exactly as
described: the collected items come from the alternating element/separator run,
the final position honours the `allow_trailer` rewind rule, and the whole `Alt`
fails exactly when `allow_empty` is false and zero elements matched, succeeding
with the collected list otherwise. -/
theorem claim_C8_theorem (g : Grammar) (fuel : Nat) (e sep : PExpr) (aT aE : Bool)
    (text : List Char) (pos : Nat) :
    peval g (fuel + 1) (.alt e sep aT aE) text pos =
      match altDescribed (fun e2 p => peval g fuel e2 text p) e sep aT fuel pos with
      | none => none
      | some (vs, q, er, ep) =>
        if aE || !vs.isEmpty then some (.ok (.list vs) q) else some (.err er ep) := by
  simp only [peval]
  rw [altLoop_eq_described]
  cases hd : altDescribed (fun e2 p => peval g fuel e2 text p) e sep aT fuel pos with
  | none => rfl
  | some r =>
    obtain ⟨vs, q, er, ep⟩ := r
    cases vs with
    | nil =>
      have hq : q = pos := altDescribed_nil_pos fuel pos ([], q, er, ep) hd rfl
      subst hq
      simp
    | cons v2 vs2 => simp

theorem choiceLoop_mono {ev ev' : PExpr → Nat → Option POut} (hev : EvLe ev ev') :
    ∀ (es : List PExpr) (b f : Nat) (fe : PExpr) (o : POut),
      choiceLoop ev es b f fe = some o → choiceLoop ev' es b f fe = some o := by
  intro es
  induction es with
  | nil => intro b f fe o h; exact h
  | cons e rest ih =>
    intro b f fe o h
    simp only [choiceLoop] at h ⊢
    cases hev2 : ev e b with
    | none => simp only [hev2] at h; cases h
    | some o2 =>
      have hev2b : ev' e b = some o2 := hev e b o2 hev2
      cases o2 with
      | ok v p =>
        simp only [hev2] at h
        simp only [hev2b]
        exact h
      | err er ep =>
        simp only [hev2] at h
        simp only [hev2b]
        by_cases hlt : f < ep
        · rw [if_pos hlt] at h ⊢
          exact ih _ _ _ _ h
        · rw [if_neg hlt] at h ⊢
          exact ih _ _ _ _ h

theorem seqLoop_mono {ev ev' : PExpr → Nat → Option POut} (hev : EvLe ev ev') :
    ∀ (es : List PExpr) (acc : List Value) (pos : Nat) (o : POut),
      seqLoop ev es acc pos = some o → seqLoop ev' es acc pos = some o := by
  intro es
  induction es with
  | nil => intro acc pos o h; exact h
  | cons e rest ih =>
    intro acc pos o h
    simp only [seqLoop] at h ⊢
    cases hev2 : ev e pos with
    | none => simp only [hev2] at h; cases h
    | some o2 =>
      have hev2b : ev' e pos = some o2 := hev e pos o2 hev2
      cases o2 with
      | ok v p =>
        simp only [hev2] at h
        simp only [hev2b]
        exact ih _ _ _ h
      | err er ep =>
        simp only [hev2] at h
        simp only [hev2b]
        exact h

theorem sweep_mono {ev ev' : PExpr → Nat → Option POut} (hev : EvLe ev ev') :
    ∀ (es : List PExpr) (c : Nat) (x : Option Nat),
      sweep ev c es = some x → sweep ev' c es = some x := by
  intro es
  induction es with
  | nil => intro c x h; exact h
  | cons e rest ih =>
    intro c x h
    simp only [sweep] at h ⊢
    cases hev2 : ev e c with
    | none => simp only [hev2] at h; cases h
    | some o2 =>
      have hev2b : ev' e c = some o2 := hev e c o2 hev2
      cases o2 with
      | ok v p =>
        simp only [hev2] at h
        simp only [hev2b]
        exact h
      | err er ep =>
        simp only [hev2] at h
        simp only [hev2b]
        exact ih _ _ h

theorem listLoop_mono {ev ev' : PExpr → Nat → Option POut} {e : PExpr}
    (hev : EvLe ev ev') :
    ∀ (n n' : Nat), n ≤ n' →
      ∀ (acc : List Value) (pos : Nat) (r : List Value × Nat × PExpr),
        listLoop ev e n acc pos = some r → listLoop ev' e n' acc pos = some r := by
  intro n
  induction n with
  | zero => intro n' hle acc pos r h; cases h
  | succ n ih =>
    intro n' hle acc pos r h
    cases n' with
    | zero => exact absurd hle (Nat.not_succ_le_zero n)
    | succ n2 =>
      simp only [listLoop] at h ⊢
      cases hev2 : ev e pos with
      | none => simp only [hev2] at h; cases h
      | some o2 =>
        have hev2b : ev' e pos = some o2 := hev e pos o2 hev2
        cases o2 with
        | err er ep =>
          simp only [hev2] at h
          simp only [hev2b]
          exact h
        | ok v p =>
          simp only [hev2] at h
          simp only [hev2b]
          exact ih n2 (Nat.le_of_succ_le_succ hle) _ _ _ h

theorem altLoop_mono {ev ev' : PExpr → Nat → Option POut} {e sep : PExpr} {aT : Bool}
    (hev : EvLe ev ev') :
    ∀ (n n' : Nat), n ≤ n' →
      ∀ (acc : List Value) (cp pos : Nat) (r : List Value × Nat × PExpr × Nat),
        altLoop ev e sep aT n acc cp pos = some r →
        altLoop ev' e sep aT n' acc cp pos = some r := by
  intro n
  induction n with
  | zero => intro n' hle acc cp pos r h; cases h
  | succ n ih =>
    intro n' hle acc cp pos r h
    cases n' with
    | zero => exact absurd hle (Nat.not_succ_le_zero n)
    | succ n2 =>
      simp only [altLoop] at h ⊢
      cases hev2 : ev e pos with
      | none => simp only [hev2] at h; cases h
      | some o2 =>
        have hev2b : ev' e pos = some o2 := hev e pos o2 hev2
        cases o2 with
        | err er ep =>
          simp only [hev2] at h
          simp only [hev2b]
          exact h
        | ok v p =>
          simp only [hev2] at h
          simp only [hev2b]
          cases hev3 : ev sep p with
          | none => simp only [hev3] at h; cases h
          | some o3 =>
            have hev3b : ev' sep p = some o3 := hev sep p o3 hev3
            cases o3 with
            | err er2 ep2 =>
              simp only [hev3] at h
              simp only [hev3b]
              exact h
            | ok v2 p2 =>
              simp only [hev3] at h
              simp only [hev3b]
              exact ih n2 (Nat.le_of_succ_le_succ hle) _ _ _ _ h

theorem skipLoop_mono {ev ev' : PExpr → Nat → Option POut} {es : List PExpr}
    (hev : EvLe ev ev') :
    ∀ (n n' : Nat), n ≤ n' → ∀ (c q : Nat),
      skipLoop ev es n c = some q → skipLoop ev' es n' c = some q := by
  intro n
  induction n with
  | zero => intro n' hle c q h; cases h
  | succ n ih =>
    intro n' hle c q h
    cases n' with
    | zero => exact absurd hle (Nat.not_succ_le_zero n)
    | succ n2 =>
      simp only [skipLoop] at h ⊢
      cases hs : sweep ev c es with
      | none => simp only [hs] at h; cases h
      | some o =>
        have hsb : sweep ev' c es = some o := sweep_mono hev es c o hs
        cases o with
        | none =>
          simp only [hs] at h
          simp only [hsb]
          exact h
        | some p =>
          simp only [hs] at h
          simp only [hsb]
          exact ih n2 (Nat.le_of_succ_le_succ hle) _ _ h

theorem laLoop_mono {ev ev' : PExpr → Nat → Option POut} {operand operators : PExpr}
    {na : Bool} (hev : EvLe ev ev') :
    ∀ (n n' : Nat), n ≤ n' →
      ∀ (isFirst : Bool) (staging opv : Value) (cp pos : Nat) (o : POut),
        laLoop ev operand operators na n isFirst staging opv cp pos = some o →
        laLoop ev' operand operators na n' isFirst staging opv cp pos = some o := by
  intro n
  induction n with
  | zero => intro n' hle isFirst staging opv cp pos o h; cases h
  | succ n ih =>
    intro n' hle isFirst staging opv cp pos o h
    cases n' with
    | zero => exact absurd hle (Nat.not_succ_le_zero n)
    | succ n2 =>
      simp only [laLoop] at h ⊢
      cases hev2 : ev operand pos with
      | none => simp only [hev2] at h; cases h
      | some o2 =>
        have hev2b : ev' operand pos = some o2 := hev operand pos o2 hev2
        cases o2 with
        | err er ep =>
          simp only [hev2] at h
          simp only [hev2b]
          exact h
        | ok v p =>
          simp only [hev2] at h
          simp only [hev2b]
          cases hna : (!isFirst && na) with
          | true =>
            rw [hna, if_pos rfl] at h
            rw [if_pos rfl]
            exact h
          | false =>
            rw [hna, if_neg Bool.false_ne_true] at h
            rw [if_neg Bool.false_ne_true]
            cases hev3 : ev operators p with
            | none => simp only [hev3] at h; cases h
            | some o3 =>
              have hev3b : ev' operators p = some o3 := hev operators p o3 hev3
              cases o3 with
              | err er2 ep2 =>
                simp only [hev3] at h
                simp only [hev3b]
                exact h
              | ok opv2 p2 =>
                simp only [hev3] at h
                simp only [hev3b]
                exact ih n2 (Nat.le_of_succ_le_succ hle) _ _ _ _ _ _ h

theorem raLoop_mono {ev ev' : PExpr → Nat → Option POut} {operand operators : PExpr}
    (hev : EvLe ev ev') :
    ∀ (n n' : Nat), n ≤ n' →
      ∀ (spine : List (Value × Value)) (cp pos : Nat) (o : POut),
        raLoop ev operand operators n spine cp pos = some o →
        raLoop ev' operand operators n' spine cp pos = some o := by
  intro n
  induction n with
  | zero => intro n' hle spine cp pos o h; cases h
  | succ n ih =>
    intro n' hle spine cp pos o h
    cases n' with
    | zero => exact absurd hle (Nat.not_succ_le_zero n)
    | succ n2 =>
      simp only [raLoop] at h ⊢
      cases hev2 : ev operand pos with
      | none => simp only [hev2] at h; cases h
      | some o2 =>
        have hev2b : ev' operand pos = some o2 := hev operand pos o2 hev2
        cases o2 with
        | err er ep =>
          simp only [hev2] at h
          simp only [hev2b]
          exact h
        | ok v p =>
          simp only [hev2] at h
          simp only [hev2b]
          cases hev3 : ev operators p with
          | none => simp only [hev3] at h; cases h
          | some o3 =>
            have hev3b : ev' operators p = some o3 := hev operators p o3 hev3
            cases o3 with
            | err er2 ep2 =>
              simp only [hev3] at h
              simp only [hev3b]
              exact h
            | ok opv p2 =>
              simp only [hev3] at h
              simp only [hev3b]
              exact ih n2 (Nat.le_of_succ_le_succ hle) _ _ _ _ h

/-- Fuel monotonicity: more fuel preserves any result of the evaluator. -/
theorem peval_mono (g : Grammar) :
    ∀ (fuel fuel' : Nat), fuel ≤ fuel' →
      ∀ (e : PExpr) (text : List Char) (pos : Nat) (r : POut),
        peval g fuel e text pos = some r → peval g fuel' e text pos = some r := by
  intro fuel
  induction fuel with
  | zero => intro fuel' hle e text pos r h; cases h
  | succ fuel ih =>
    intro fuel' hle e text pos r h
    cases fuel' with
    | zero => exact absurd hle (Nat.not_succ_le_zero fuel)
    | succ F =>
      have hF : fuel ≤ F := Nat.le_of_succ_le_succ hle
      have hev : EvLe (fun e2 p => peval g fuel e2 text p)
          (fun e2 p => peval g F e2 text p) :=
        fun e2 p r2 h2 => ih F hF e2 text p r2 h2
      cases e with
      | strLit v sk =>
        simp only [peval] at h ⊢
        by_cases hv : v = ""
        · rw [if_pos hv] at h ⊢; exact h
        · rw [if_neg hv] at h ⊢
          by_cases hm2 : (text.drop pos).take v.length = v.data
          · rw [if_pos hm2] at h ⊢
            cases sk with
            | false =>
              rw [if_neg Bool.false_ne_true] at h ⊢
              exact h
            | true =>
              rw [if_pos rfl] at h ⊢
              cases hlk : lookupRule g "_ignored" with
              | none => simp only [hlk] at h; cases h
              | some body =>
                simp only [hlk] at h ⊢
                cases hin : peval g fuel body text (pos + v.length) with
                | none => simp only [hin] at h; cases h
                | some o2 =>
                  simp only [hin] at h
                  simp only [ih F hF body text (pos + v.length) o2 hin]
                  exact h
          · rw [if_neg hm2] at h ⊢; exact h
      | failE => exact h
      | choice es =>
        cases es with
        | nil => simp only [peval] at h; cases h
        | cons e2 rest =>
          simp only [peval] at h ⊢
          exact choiceLoop_mono hev _ _ _ _ _ h
      | seq es =>
        simp only [peval] at h ⊢
        exact seqLoop_mono hev _ _ _ _ h
      | listE e2 aE =>
        simp only [peval] at h ⊢
        cases hl : listLoop (fun e3 p => peval g fuel e3 text p) e2 fuel [] pos with
        | none => simp only [hl] at h; cases h
        | some r2 =>
          simp only [hl] at h
          simp only [listLoop_mono hev fuel F hF _ _ _ hl]
          exact h
      | alt e2 sep aT aE =>
        simp only [peval] at h ⊢
        cases hl : altLoop (fun e3 p => peval g fuel e3 text p) e2 sep aT fuel [] pos pos with
        | none => simp only [hl] at h; cases h
        | some r2 =>
          simp only [hl] at h
          simp only [altLoop_mono hev fuel F hF _ _ _ _ hl]
          exact h
      | opt e2 =>
        simp only [peval] at h ⊢
        cases hin : peval g fuel e2 text pos with
        | none => simp only [hin] at h; cases h
        | some o2 =>
          cases o2 with
          | ok v p =>
            simp only [hin] at h
            simp only [ih F hF e2 text pos _ hin]
            exact h
          | err er ep =>
            simp only [hin] at h
            simp only [ih F hF e2 text pos _ hin]
            exact h
      | skip es =>
        simp only [peval] at h ⊢
        cases hl : skipLoop (fun e2 p => peval g fuel e2 text p) es fuel pos with
        | none => simp only [hl] at h; cases h
        | some q =>
          simp only [hl] at h
          simp only [skipLoop_mono hev fuel F hF _ _ hl]
          exact h
      | ref name =>
        simp only [peval] at h ⊢
        cases hlk : lookupRule g name with
        | none => simp only [hlk] at h; cases h
        | some body =>
          simp only [hlk] at h ⊢
          exact ih F hF _ _ _ _ h
      | leftAssoc operand operators na =>
        simp only [peval] at h ⊢
        exact laLoop_mono hev fuel F hF _ _ _ _ _ _ h
      | rightAssoc operand operators =>
        simp only [peval] at h ⊢
        exact raLoop_mono hev fuel F hF _ _ _ _ h

/-- Determinism across fuels: two terminating evaluations agree. -/
theorem peval_agree (g : Grammar) {f f' : Nat} {e : PExpr} {text : List Char}
    {pos : Nat} {r r' : POut} (h : peval g f e text pos = some r)
    (h' : peval g f' e text pos = some r') : r = r' := by
  rcases Nat.le_total f f' with hle | hle
  · have h3 := peval_mono g f f' hle e text pos r h
    rw [h3] at h'
    exact Option.some.inj h'
  · have h3 := peval_mono g f' f hle e text pos r' h'
    rw [h3] at h
    exact (Option.some.inj h).symm

/-- Two terminating rule calls agree regardless of fuel. -/
theorem pevalCall_agree (g : Grammar) {text : List Char} {f f' : Nat}
    {name : String} {p : Nat} {r r' : POut}
    (h : pevalCall g f name text p = some r)
    (h' : pevalCall g f' name text p = some r') : r = r' := by
  cases hlk : lookupRule g name with
  | none => simp only [pevalCall, hlk] at h; cases h
  | some body =>
    simp only [pevalCall, hlk] at h h'
    exact peval_agree g h h'

/-- Recording a terminated rule call keeps the memo table sound. -/
theorem memoCorrect_insert {g : Grammar} {text : List Char} {m : Memo}
    (hm : MemoCorrect g text m) {name : String} {p : Nat} {r : POut} {fuel : Nat}
    (hpc : pevalCall g fuel name text p = some r) :
    MemoCorrect g text (((name, p), r) :: m) := by
  intro name2 p2 r2 hlk f r' hc
  simp only [memoLookup] at hlk
  by_cases hk : name = name2 ∧ p = p2
  · rw [if_pos hk] at hlk
    cases hlk
    obtain ⟨hk1, hk2⟩ := hk
    subst hk1
    subst hk2
    exact pevalCall_agree g hc hpc
  · rw [if_neg hk] at hlk
    exact hm name2 p2 r2 hlk f r' hc

/-- The empty table is sound. -/
theorem memoCorrect_nil (g : Grammar) (text : List Char) : MemoCorrect g text [] := by
  intro name p r hlk
  cases hlk

theorem choiceLoopM_sim {Inv : Memo → Prop} {ev : PExpr → Nat → Option POut}
    {evM : PExpr → Nat → Memo → Option (POut × Memo)} (hsim : EvSim Inv ev evM) :
    ∀ (es : List PExpr) (b f : Nat) (fe : PExpr) (m : Memo) (o : POut),
      Inv m → choiceLoop ev es b f fe = some o →
      ∃ m2, choiceLoopM evM es b f fe m = some (o, m2) ∧ Inv m2 := by
  intro es
  induction es with
  | nil =>
    intro b f fe m o hm h
    simp only [choiceLoop] at h
    cases h
    exact ⟨m, rfl, hm⟩
  | cons e rest ih =>
    intro b f fe m o hm h
    simp only [choiceLoop] at h
    cases hev2 : ev e b with
    | none => simp only [hev2] at h; cases h
    | some o2 =>
      obtain ⟨m2, hM, hm2⟩ := hsim e b m o2 hm hev2
      cases o2 with
      | ok v p =>
        simp only [hev2] at h
        cases h
        exact ⟨m2, by simp only [choiceLoopM, hM], hm2⟩
      | err er ep =>
        simp only [hev2] at h
        by_cases hlt : f < ep
        · rw [if_pos hlt] at h
          obtain ⟨m3, hM3, hm3⟩ := ih _ _ _ m2 _ hm2 h
          refine ⟨m3, ?_, hm3⟩
          simp only [choiceLoopM, hM]
          rw [if_pos hlt]
          exact hM3
        · rw [if_neg hlt] at h
          obtain ⟨m3, hM3, hm3⟩ := ih _ _ _ m2 _ hm2 h
          refine ⟨m3, ?_, hm3⟩
          simp only [choiceLoopM, hM]
          rw [if_neg hlt]
          exact hM3

theorem seqLoopM_sim {Inv : Memo → Prop} {ev : PExpr → Nat → Option POut}
    {evM : PExpr → Nat → Memo → Option (POut × Memo)} (hsim : EvSim Inv ev evM) :
    ∀ (es : List PExpr) (acc : List Value) (pos : Nat) (m : Memo) (o : POut),
      Inv m → seqLoop ev es acc pos = some o →
      ∃ m2, seqLoopM evM es acc pos m = some (o, m2) ∧ Inv m2 := by
  intro es
  induction es with
  | nil =>
    intro acc pos m o hm h
    simp only [seqLoop] at h
    cases h
    exact ⟨m, rfl, hm⟩
  | cons e rest ih =>
    intro acc pos m o hm h
    simp only [seqLoop] at h
    cases hev2 : ev e pos with
    | none => simp only [hev2] at h; cases h
    | some o2 =>
      obtain ⟨m2, hM, hm2⟩ := hsim e pos m o2 hm hev2
      cases o2 with
      | err er ep =>
        simp only [hev2] at h
        cases h
        exact ⟨m2, by simp only [seqLoopM, hM], hm2⟩
      | ok v p =>
        simp only [hev2] at h
        obtain ⟨m3, hM3, hm3⟩ := ih _ _ m2 _ hm2 h
        refine ⟨m3, ?_, hm3⟩
        simp only [seqLoopM, hM]
        exact hM3

theorem listLoopM_sim {Inv : Memo → Prop} {ev : PExpr → Nat → Option POut}
    {evM : PExpr → Nat → Memo → Option (POut × Memo)} {e : PExpr}
    (hsim : EvSim Inv ev evM) :
    ∀ (n : Nat) (acc : List Value) (pos : Nat) (m : Memo)
      (r : List Value × Nat × PExpr),
      Inv m → listLoop ev e n acc pos = some r →
      ∃ m2, listLoopM evM e n acc pos m = some (r, m2) ∧ Inv m2 := by
  intro n
  induction n with
  | zero => intro acc pos m r hm h; cases h
  | succ n ih =>
    intro acc pos m r hm h
    simp only [listLoop] at h
    cases hev2 : ev e pos with
    | none => simp only [hev2] at h; cases h
    | some o2 =>
      obtain ⟨m2, hM, hm2⟩ := hsim e pos m o2 hm hev2
      cases o2 with
      | err er ep =>
        simp only [hev2] at h
        cases h
        exact ⟨m2, by simp only [listLoopM, hM], hm2⟩
      | ok v p =>
        simp only [hev2] at h
        obtain ⟨m3, hM3, hm3⟩ := ih _ _ m2 _ hm2 h
        refine ⟨m3, ?_, hm3⟩
        simp only [listLoopM, hM]
        exact hM3

theorem altLoopM_sim {Inv : Memo → Prop} {ev : PExpr → Nat → Option POut}
    {evM : PExpr → Nat → Memo → Option (POut × Memo)} {e sep : PExpr} {aT : Bool}
    (hsim : EvSim Inv ev evM) :
    ∀ (n : Nat) (acc : List Value) (cp pos : Nat) (m : Memo)
      (r : List Value × Nat × PExpr × Nat),
      Inv m → altLoop ev e sep aT n acc cp pos = some r →
      ∃ m2, altLoopM evM e sep aT n acc cp pos m = some (r, m2) ∧ Inv m2 := by
  intro n
  induction n with
  | zero => intro acc cp pos m r hm h; cases h
  | succ n ih =>
    intro acc cp pos m r hm h
    simp only [altLoop] at h
    cases hev2 : ev e pos with
    | none => simp only [hev2] at h; cases h
    | some o2 =>
      obtain ⟨m2, hM, hm2⟩ := hsim e pos m o2 hm hev2
      cases o2 with
      | err er ep =>
        simp only [hev2] at h
        cases h
        exact ⟨m2, by simp only [altLoopM, hM], hm2⟩
      | ok v p =>
        simp only [hev2] at h
        cases hev3 : ev sep p with
        | none => simp only [hev3] at h; cases h
        | some o3 =>
          obtain ⟨m3, hM3, hm3⟩ := hsim sep p m2 o3 hm2 hev3
          cases o3 with
          | err er2 ep2 =>
            simp only [hev3] at h
            cases h
            exact ⟨m3, by simp only [altLoopM, hM, hM3], hm3⟩
          | ok v2 p2 =>
            simp only [hev3] at h
            obtain ⟨m4, hM4, hm4⟩ := ih _ _ _ m3 _ hm3 h
            refine ⟨m4, ?_, hm4⟩
            simp only [altLoopM, hM, hM3]
            exact hM4

theorem sweepM_sim {Inv : Memo → Prop} {ev : PExpr → Nat → Option POut}
    {evM : PExpr → Nat → Memo → Option (POut × Memo)} (hsim : EvSim Inv ev evM) :
    ∀ (es : List PExpr) (c : Nat) (m : Memo) (x : Option Nat),
      Inv m → sweep ev c es = some x →
      ∃ m2, sweepM evM c es m = some (x, m2) ∧ Inv m2 := by
  intro es
  induction es with
  | nil =>
    intro c m x hm h
    simp only [sweep] at h
    cases h
    exact ⟨m, rfl, hm⟩
  | cons e rest ih =>
    intro c m x hm h
    simp only [sweep] at h
    cases hev2 : ev e c with
    | none => simp only [hev2] at h; cases h
    | some o2 =>
      obtain ⟨m2, hM, hm2⟩ := hsim e c m o2 hm hev2
      cases o2 with
      | ok v p =>
        simp only [hev2] at h
        cases h
        exact ⟨m2, by simp only [sweepM, hM], hm2⟩
      | err er ep =>
        simp only [hev2] at h
        obtain ⟨m3, hM3, hm3⟩ := ih c m2 x hm2 h
        refine ⟨m3, ?_, hm3⟩
        simp only [sweepM, hM]
        exact hM3

theorem skipLoopM_sim {Inv : Memo → Prop} {ev : PExpr → Nat → Option POut}
    {evM : PExpr → Nat → Memo → Option (POut × Memo)} {es : List PExpr}
    (hsim : EvSim Inv ev evM) :
    ∀ (n c : Nat) (m : Memo) (q : Nat),
      Inv m → skipLoop ev es n c = some q →
      ∃ m2, skipLoopM evM es n c m = some (q, m2) ∧ Inv m2 := by
  intro n
  induction n with
  | zero => intro c m q hm h; cases h
  | succ n ih =>
    intro c m q hm h
    simp only [skipLoop] at h
    cases hs : sweep ev c es with
    | none => simp only [hs] at h; cases h
    | some x =>
      obtain ⟨m2, hM, hm2⟩ := sweepM_sim hsim es c m x hm hs
      cases x with
      | none =>
        simp only [hs] at h
        cases h
        exact ⟨m2, by simp only [skipLoopM, hM], hm2⟩
      | some p =>
        simp only [hs] at h
        obtain ⟨m3, hM3, hm3⟩ := ih _ m2 _ hm2 h
        refine ⟨m3, ?_, hm3⟩
        simp only [skipLoopM, hM]
        exact hM3

theorem laLoopM_sim {Inv : Memo → Prop} {ev : PExpr → Nat → Option POut}
    {evM : PExpr → Nat → Memo → Option (POut × Memo)} {operand operators : PExpr}
    {na : Bool} (hsim : EvSim Inv ev evM) :
    ∀ (n : Nat) (isFirst : Bool) (staging opv : Value) (cp pos : Nat) (m : Memo)
      (o : POut),
      Inv m → laLoop ev operand operators na n isFirst staging opv cp pos = some o →
      ∃ m2, laLoopM evM operand operators na n isFirst staging opv cp pos m =
        some (o, m2) ∧ Inv m2 := by
  intro n
  induction n with
  | zero => intro isFirst staging opv cp pos m o hm h; cases h
  | succ n ih =>
    intro isFirst staging opv cp pos m o hm h
    simp only [laLoop] at h
    cases hev2 : ev operand pos with
    | none => simp only [hev2] at h; cases h
    | some o2 =>
      obtain ⟨m2, hM, hm2⟩ := hsim operand pos m o2 hm hev2
      cases o2 with
      | err er ep =>
        simp only [hev2] at h
        by_cases hf : isFirst = true
        · rw [if_pos hf] at h
          cases h
          refine ⟨m2, ?_, hm2⟩
          simp only [laLoopM, hM]
          rw [if_pos hf]
        · rw [if_neg hf] at h
          cases h
          refine ⟨m2, ?_, hm2⟩
          simp only [laLoopM, hM]
          rw [if_neg hf]
      | ok v p =>
        simp only [hev2] at h
        by_cases hna : (!isFirst && na) = true
        · rw [if_pos hna] at h
          cases h
          refine ⟨m2, ?_, hm2⟩
          simp only [laLoopM, hM]
          rw [if_pos hna]
        · rw [if_neg hna] at h
          cases hev3 : ev operators p with
          | none => simp only [hev3] at h; cases h
          | some o3 =>
            obtain ⟨m3, hM3, hm3⟩ := hsim operators p m2 o3 hm2 hev3
            cases o3 with
            | err er2 ep2 =>
              simp only [hev3] at h
              cases h
              refine ⟨m3, ?_, hm3⟩
              simp only [laLoopM, hM]
              rw [if_neg hna]
              simp only [hM3]
            | ok opv2 p2 =>
              simp only [hev3] at h
              obtain ⟨m4, hM4, hm4⟩ := ih _ _ _ _ _ m3 _ hm3 h
              refine ⟨m4, ?_, hm4⟩
              simp only [laLoopM, hM]
              rw [if_neg hna]
              simp only [hM3]
              exact hM4

theorem raLoopM_sim {Inv : Memo → Prop} {ev : PExpr → Nat → Option POut}
    {evM : PExpr → Nat → Memo → Option (POut × Memo)} {operand operators : PExpr}
    (hsim : EvSim Inv ev evM) :
    ∀ (n : Nat) (spine : List (Value × Value)) (cp pos : Nat) (m : Memo) (o : POut),
      Inv m → raLoop ev operand operators n spine cp pos = some o →
      ∃ m2, raLoopM evM operand operators n spine cp pos m = some (o, m2) ∧ Inv m2 := by
  intro n
  induction n with
  | zero => intro spine cp pos m o hm h; cases h
  | succ n ih =>
    intro spine cp pos m o hm h
    simp only [raLoop] at h
    cases hev2 : ev operand pos with
    | none => simp only [hev2] at h; cases h
    | some o2 =>
      obtain ⟨m2, hM, hm2⟩ := hsim operand pos m o2 hm hev2
      cases o2 with
      | err er ep =>
        simp only [hev2] at h
        cases hlast : spine.getLast? with
        | none =>
          simp only [hlast] at h
          cases h
          exact ⟨m2, by simp only [raLoopM, hM, hlast], hm2⟩
        | some pr =>
          simp only [hlast] at h
          cases h
          exact ⟨m2, by simp only [raLoopM, hM, hlast], hm2⟩
      | ok v p =>
        simp only [hev2] at h
        cases hev3 : ev operators p with
        | none => simp only [hev3] at h; cases h
        | some o3 =>
          obtain ⟨m3, hM3, hm3⟩ := hsim operators p m2 o3 hm2 hev3
          cases o3 with
          | err er2 ep2 =>
            simp only [hev3] at h
            cases h
            exact ⟨m3, by simp only [raLoopM, hM, hM3], hm3⟩
          | ok opv p2 =>
            simp only [hev3] at h
            obtain ⟨m4, hM4, hm4⟩ := ih _ _ _ m3 _ hm3 h
            refine ⟨m4, ?_, hm4⟩
            simp only [raLoopM, hM, hM3]
            exact hM4

/-- The memoized driver simulates the pure evaluator: from any sound memo table,
every terminating pure evaluation is reproduced exactly (same status, result and
position), and the final table is again sound. -/
theorem evalM_sim (g : Grammar) (text : List Char) :
    ∀ (fuel : Nat) (e : PExpr) (pos : Nat) (m : Memo) (r : POut),
      MemoCorrect g text m → peval g fuel e text pos = some r →
      ∃ m2, evalM g fuel e text pos m = some (r, m2) ∧ MemoCorrect g text m2 := by
  intro fuel
  induction fuel with
  | zero => intro e pos m r hm h; cases h
  | succ fuel ih =>
    intro e pos m r hm h
    have hsim : EvSim (MemoCorrect g text) (fun e2 p => peval g fuel e2 text p)
        (fun e2 p m2 => evalM g fuel e2 text p m2) :=
      fun e2 p m2 r2 hm2 h2 => ih e2 p m2 r2 hm2 h2
    cases e with
    | strLit v sk =>
      simp only [peval] at h
      simp only [evalM]
      by_cases hv : v = ""
      · rw [if_pos hv] at h ⊢
        cases h
        exact ⟨m, rfl, hm⟩
      · rw [if_neg hv] at h ⊢
        by_cases hmt : (text.drop pos).take v.length = v.data
        · rw [if_pos hmt] at h ⊢
          cases sk with
          | false =>
            rw [if_neg Bool.false_ne_true] at h ⊢
            cases h
            exact ⟨m, rfl, hm⟩
          | true =>
            rw [if_pos rfl] at h ⊢
            cases hlk : lookupRule g "_ignored" with
            | none => simp only [hlk] at h; cases h
            | some body =>
              simp only [hlk] at h
              cases hin : peval g fuel body text (pos + v.length) with
              | none => simp only [hin] at h; cases h
              | some o2 =>
                simp only [hin] at h
                cases h
                have hpc : pevalCall g fuel "_ignored" text (pos + v.length) = some o2 := by
                  simp only [pevalCall, hlk]
                  exact hin
                cases hmk : memoLookup m "_ignored" (pos + v.length) with
                | some rhit =>
                  have heq : o2 = rhit := hm _ _ _ hmk fuel o2 hpc
                  refine ⟨m, ?_, hm⟩
                  simp only [callRule, hlk, hmk]
                  rw [← heq]
                | none =>
                  obtain ⟨m2, hM, hm2⟩ := ih body (pos + v.length) m o2 hm hin
                  refine ⟨(("_ignored", pos + v.length), o2) :: m2, ?_,
                    memoCorrect_insert hm2 hpc⟩
                  simp only [callRule, hlk, hmk, hM]
        · rw [if_neg hmt] at h ⊢
          cases h
          exact ⟨m, rfl, hm⟩
    | failE =>
      simp only [peval] at h
      cases h
      exact ⟨m, rfl, hm⟩
    | choice es =>
      cases es with
      | nil => simp only [peval] at h; cases h
      | cons e2 rest =>
        simp only [peval] at h
        simp only [evalM]
        exact choiceLoopM_sim hsim _ _ _ _ m r hm h
    | seq es =>
      simp only [peval] at h
      simp only [evalM]
      exact seqLoopM_sim hsim _ _ _ m r hm h
    | listE e2 aE =>
      simp only [peval] at h
      simp only [evalM]
      cases hl : listLoop (fun e3 p => peval g fuel e3 text p) e2 fuel [] pos with
      | none => simp only [hl] at h; cases h
      | some r2 =>
        obtain ⟨acc, cp, er⟩ := r2
        simp only [hl] at h
        obtain ⟨m2, hM, hm2⟩ := listLoopM_sim hsim fuel [] pos m _ hm hl
        refine ⟨m2, ?_, hm2⟩
        simp only [hM]
        by_cases hb : (aE || !acc.isEmpty) = true
        · rw [if_pos hb] at h ⊢
          cases h
          rfl
        · rw [if_neg hb] at h ⊢
          cases h
          rfl
    | alt e2 sep aT aE =>
      simp only [peval] at h
      simp only [evalM]
      cases hl : altLoop (fun e3 p => peval g fuel e3 text p) e2 sep aT fuel [] pos pos with
      | none => simp only [hl] at h; cases h
      | some r2 =>
        obtain ⟨acc, cp, er, ep⟩ := r2
        simp only [hl] at h
        obtain ⟨m2, hM, hm2⟩ := altLoopM_sim hsim fuel [] pos pos m _ hm hl
        refine ⟨m2, ?_, hm2⟩
        simp only [hM]
        by_cases hb : (aE || !acc.isEmpty) = true
        · rw [if_pos hb] at h ⊢
          cases h
          rfl
        · rw [if_neg hb] at h ⊢
          cases h
          rfl
    | opt e2 =>
      simp only [peval] at h
      simp only [evalM]
      cases hin : peval g fuel e2 text pos with
      | none => simp only [hin] at h; cases h
      | some o2 =>
        obtain ⟨m2, hM, hm2⟩ := ih e2 pos m o2 hm hin
        cases o2 with
        | ok v p =>
          simp only [hin] at h
          cases h
          refine ⟨m2, ?_, hm2⟩
          simp only [hM]
        | err er ep =>
          simp only [hin] at h
          cases h
          refine ⟨m2, ?_, hm2⟩
          simp only [hM]
    | skip es =>
      simp only [peval] at h
      simp only [evalM]
      cases hl : skipLoop (fun e2 p => peval g fuel e2 text p) es fuel pos with
      | none => simp only [hl] at h; cases h
      | some q =>
        simp only [hl] at h
        cases h
        obtain ⟨m2, hM, hm2⟩ := skipLoopM_sim hsim fuel pos m q hm hl
        refine ⟨m2, ?_, hm2⟩
        simp only [hM]
    | ref name =>
      simp only [peval] at h
      simp only [evalM]
      cases hlk : lookupRule g name with
      | none => simp only [hlk] at h; cases h
      | some body =>
        simp only [hlk] at h
        have hpc : pevalCall g fuel name text pos = some r := by
          simp only [pevalCall, hlk]
          exact h
        cases hmk : memoLookup m name pos with
        | some rhit =>
          have heq : r = rhit := hm _ _ _ hmk fuel r hpc
          refine ⟨m, ?_, hm⟩
          simp only [callRule, hlk, hmk]
          rw [heq]
        | none =>
          obtain ⟨m2, hM, hm2⟩ := ih body pos m r hm h
          refine ⟨((name, pos), r) :: m2, ?_, memoCorrect_insert hm2 hpc⟩
          simp only [callRule, hlk, hmk, hM]
    | leftAssoc operand operators na =>
      simp only [peval] at h
      simp only [evalM]
      exact laLoopM_sim hsim fuel true .null .null 0 pos m r hm h
    | rightAssoc operand operators =>
      simp only [peval] at h
      simp only [evalM]
      exact raLoopM_sim hsim fuel [] 0 pos m r hm h

/-- Claim C4: memoization is sound.  For any sound mid-parse memo table (and in
particular for the table emptied mid-parse), the memoized driver yields exactly
the same final status, result and position as the pure (memo-free) evaluation:
every memo hit equals re-evaluating the rule at that position. -/
theorem claim_C4_theorem (g : Grammar) (text : List Char) (fuel : Nat) (e : PExpr)
    (pos : Nat) (m : Memo) (r : POut) (hm : MemoCorrect g text m)
    (h : peval g fuel e text pos = some r) :
    (evalM g fuel e text pos m).map Prod.fst = some r ∧
    (evalM g fuel e text pos []).map Prod.fst = some r := by
  constructor
  · obtain ⟨m2, hM, _⟩ := evalM_sim g text fuel e pos m r hm h
    rw [hM]
    rfl
  · obtain ⟨m2, hM, _⟩ := evalM_sim g text fuel e pos [] r (memoCorrect_nil g text) h
    rw [hM]
    rfl

/-- Concrete instantiation of `claim_C4_theorem`: a grammar with one rule `r`
called twice in sequence (the second call is a memo hit in the driver). -/
theorem claim_C4_witness :
    (evalM [("r", .strLit "a" false)] 10 (.seq [.ref "r", .ref "r"]) "aa".toList 0
      []).map Prod.fst = some (.ok (.list [.str "a", .str "a"]) 2) ∧
    (evalM [("r", .strLit "a" false)] 10 (.seq [.ref "r", .ref "r"]) "aa".toList 0
      []).map Prod.fst = some (.ok (.list [.str "a", .str "a"]) 2) :=
  claim_C4_theorem [("r", .strLit "a" false)] "aa".toList 10
    (.seq [.ref "r", .ref "r"]) 0 [] (.ok (.list [.str "a", .str "a"]) 2)
    (memoCorrect_nil _ _) rfl

/-- An `anyAlwaysSucceeds` list contains an always-succeeding member. -/
theorem anyAlwaysSucceeds_exists :
    ∀ (es : List PExpr), anyAlwaysSucceeds es = true →
      ∃ e, e ∈ es ∧ alwaysSucceeds e = true := by
  intro es
  induction es with
  | nil => intro h; cases h
  | cons e rest ih =>
    intro h
    simp only [anyAlwaysSucceeds, Bool.or_eq_true] at h
    rcases h with h | h
    · exact ⟨e, List.mem_cons_self _ _, h⟩
    · obtain ⟨e2, hmem, h2⟩ := ih h
      exact ⟨e2, List.mem_cons_of_mem _ hmem, h2⟩

/-- If some alternative never fails, the choice loop never returns a failure. -/
theorem choiceLoop_not_err {ev : PExpr → Nat → Option POut} :
    ∀ (es : List PExpr) (b f : Nat) (fe : PExpr) (er : PExpr) (ep : Nat),
      (∃ e, e ∈ es ∧ ∀ o, ev e b = some o → ∀ er2 ep2, o ≠ .err er2 ep2) →
      choiceLoop ev es b f fe ≠ some (.err er ep) := by
  intro es
  induction es with
  | nil =>
    intro b f fe er ep hex
    obtain ⟨e, hmem, _⟩ := hex
    cases hmem
  | cons e rest ih =>
    intro b f fe er ep hex h
    simp only [choiceLoop] at h
    cases hev2 : ev e b with
    | none => simp only [hev2] at h; cases h
    | some o2 =>
      cases o2 with
      | ok v p => simp only [hev2] at h; cases h
      | err er2 ep2 =>
        simp only [hev2] at h
        obtain ⟨e2, hmem, hsafe⟩ := hex
        cases hmem with
        | head => exact hsafe _ hev2 er2 ep2 rfl
        | tail _ hmem2 =>
          by_cases hlt : f < ep2
          · rw [if_pos hlt] at h
            exact ih _ _ _ _ _ ⟨e2, hmem2, hsafe⟩ h
          · rw [if_neg hlt] at h
            exact ih _ _ _ _ _ ⟨e2, hmem2, hsafe⟩ h

/-- Soundness of the `always_succeeds` shortcut used by the compiler: an
expression whose `always_succeeds()` is true never returns a failure, so the
generated code that omits the status check after such an expression behaves
exactly like the status-checking code modelled here. -/
theorem alwaysSucceeds_sound (g : Grammar) (text : List Char) :
    ∀ (fuel : Nat) (e : PExpr) (pos : Nat) (er : PExpr) (ep : Nat),
      alwaysSucceeds e = true → peval g fuel e text pos ≠ some (.err er ep) := by
  intro fuel
  induction fuel with
  | zero => intro e pos er ep ha h; cases h
  | succ fuel ih =>
    intro e pos er ep ha h
    cases e with
    | strLit v sk =>
      simp only [alwaysSucceeds, decide_eq_true_eq] at ha
      simp only [peval] at h
      rw [if_pos ha] at h
      cases h
    | failE => simp only [alwaysSucceeds] at ha; cases ha
    | choice es =>
      simp only [alwaysSucceeds] at ha
      obtain ⟨e2, hmem, ha2⟩ := anyAlwaysSucceeds_exists es ha
      cases es with
      | nil => cases hmem
      | cons e3 rest =>
        simp only [peval] at h
        refine choiceLoop_not_err _ _ _ _ _ _ ?_ h
        exact ⟨e2, hmem, fun o ho er2 ep2 hcontra => by
          subst hcontra
          exact ih e2 pos er2 ep2 ha2 ho⟩
    | seq es => simp only [alwaysSucceeds] at ha; cases ha
    | listE e2 aE => simp only [alwaysSucceeds] at ha; cases ha
    | alt e2 sep aT aE =>
      simp only [alwaysSucceeds] at ha
      subst ha
      simp only [peval] at h
      cases hl : altLoop (fun e3 p => peval g fuel e3 text p) e2 sep aT fuel [] pos pos with
      | none => simp only [hl] at h; cases h
      | some r2 =>
        obtain ⟨acc, cp, er2, ep2⟩ := r2
        simp only [hl] at h
        rw [if_pos (by simp)] at h
        cases h
    | opt e2 =>
      simp only [peval] at h
      cases hin : peval g fuel e2 text pos with
      | none => simp only [hin] at h; cases h
      | some o2 =>
        cases o2 with
        | ok v p => simp only [hin] at h; cases h
        | err er2 ep2 => simp only [hin] at h; cases h
    | skip es =>
      simp only [peval] at h
      cases hl : skipLoop (fun e2 p => peval g fuel e2 text p) es fuel pos with
      | none => simp only [hl] at h; cases h
      | some q => simp only [hl] at h; cases h
    | ref name => simp only [alwaysSucceeds] at ha; cases ha
    | leftAssoc operand operators na => simp only [alwaysSucceeds] at ha; cases ha
    | rightAssoc operand operators => simp only [alwaysSucceeds] at ha; cases ha
